import Mathlib

/-!
Trigger scheduling of openEMS processing units.

A shallow embedding of `Common/processing.cpp`: the firing decision
`Processing::CheckTimestep`, the look-ahead `Processing::GetNextInterval`,
the explicit-step list (`AddStep`, `AddSteps`), the frequency sampling interval
(`AddFrequency`), the guards of `Dump_FD_Data`, `Reset`, and the aggregate
operations `ProcessingArray::Process` and `ProcessingArray::Reset`.

Conventions.
* `unsigned int` values are natural numbers (below `2^32` for a well-formed
  state); `int` values are integers.  Every conversion between the two and
  every `int` operation that can leave the 32-bit range is written out with
  `toInt`, `toU32`, `subU32` and `wrapInt`.
* Member functions that mutate the object return the new object next to
  their result; `const` member functions are plain functions of the object.
* The current step `m_Eng_Interface->GetNumberOfTimesteps()` is the argument
  `ts` of the functions that read it.
* The type of a frequency sample (`double` in the source) is a parameter
  `Freq`: the scheduling code only stores these values.
-/

set_option autoImplicit false

/-! ## Machine integers -/

/-- Largest value of a 32-bit `int` (`INT_MAX` of `<climits>`). -/
def INT_MAX : Int := 2147483647

/-- Conversion `unsigned int -> int`: the value modulo `2^32`, read as two's complement. -/
def toInt (u : Nat) : Int :=
  if u % 4294967296 < 2147483648 then ((u % 4294967296 : Nat) : Int)
  else ((u % 4294967296 : Nat) : Int) - 4294967296

/-- Conversion `int -> unsigned int`: the value modulo `2^32`. -/
def toU32 (i : Int) : Nat := (i % 4294967296).toNat

/-- Subtraction of two `unsigned int` values (modulo `2^32`). -/
def subU32 (a b : Nat) : Nat :=
  (a % 4294967296 + 4294967296 - b % 4294967296) % 4294967296

/-- An `int` result brought back into the 32-bit two's complement range. -/
def wrapInt (i : Int) : Int := (i + 2147483648) % 4294967296 - 2147483648

/-! ## The processing unit -/

/-- Trigger state of one `Processing` object: the members read or written by
the scheduling functions. -/
structure Processing (Freq : Type) where
  /-- Member `bool Enabled`. -/
  Enabled : Bool
  /-- Member `m_PS_pos`: index of the next explicit step that has not fired. -/
  m_PS_pos : Nat
  /-- Member `vector<unsigned int> m_ProcessSteps`. -/
  m_ProcessSteps : List Nat
  /-- Member `unsigned int ProcessInterval` (0 = no periodic trigger). -/
  ProcessInterval : Nat
  /-- Member `unsigned int m_FD_Interval` (0 = no frequency-domain trigger). -/
  m_FD_Interval : Nat
  /-- Member `vector<double> m_FD_Samples`. -/
  m_FD_Samples : List Freq

variable {Freq : Type}

/-- Constructor `Processing::Processing`: the trigger state of a new unit. -/
def Processing.new : Processing Freq :=
  { Enabled := true, m_PS_pos := 0, m_ProcessSteps := [], ProcessInterval := 0,
    m_FD_Interval := 0, m_FD_Samples := [] }

/-- Method `Processing::Reset`. -/
def Processing.Reset (p : Processing Freq) : Processing Freq :=
  { p with m_PS_pos := 0 }

/-- Lines 74-83 of `Processing::CheckTimestep`: the periodic and the
frequency-domain test, reached when the explicit-step test did not return. -/
def Processing.CheckTimestep.intervals (p : Processing Freq) (ts : Nat) : Bool :=
  if p.ProcessInterval ≠ 0 ∧ ts % p.ProcessInterval = 0 then true
  else if p.m_FD_Interval ≠ 0 ∧ ts % p.m_FD_Interval = 0 then true
  else false

/-- Method `Processing::CheckTimestep` at current step `ts`: the returned flag
and the object after the call. -/
def Processing.CheckTimestep (p : Processing Freq) (ts : Nat) : Bool × Processing Freq :=
  if h : p.m_ProcessSteps.length > p.m_PS_pos then
    if p.m_ProcessSteps.get ⟨p.m_PS_pos, h⟩ = ts then
      (true, { p with m_PS_pos := p.m_PS_pos + 1 })
    else (Processing.CheckTimestep.intervals p ts, p)
  else (Processing.CheckTimestep.intervals p ts, p)

/-- Method `Processing::GetNextInterval` (a `const` member) at current step `ts`.

* `(int)m_ProcessSteps.at(m_PS_pos)-(int)ts` is a subtraction of two `int`
  values; a result outside the 32-bit range (undefined in C++) is wrapped.
* In `(int)I - (int)ts % I` the cast binds first, `%` and `-` then have an
  `unsigned int` operand, so both are computed on `unsigned int` values and the
  difference is converted to `int` when it is stored in `next_Interval`.
* `at(m_PS_pos)` is only reached under `size() > m_PS_pos`, and `% I` only
  under `I != 0`. -/
def Processing.GetNextInterval (p : Processing Freq) (ts : Nat) : Int :=
  if p.Enabled = false then -1
  else
    let next : Int := INT_MAX
    let next : Int :=
      if h : p.m_ProcessSteps.length > p.m_PS_pos then
        wrapInt (toInt (p.m_ProcessSteps.get ⟨p.m_PS_pos, h⟩) - toInt ts)
      else next
    let next : Int :=
      if p.ProcessInterval ≠ 0 then
        let next_Interval : Int :=
          toInt (subU32 (toU32 (toInt p.ProcessInterval)) (toU32 (toInt ts) % p.ProcessInterval))
        if next_Interval < next then next_Interval else next
      else next
    let next : Int :=
      if p.m_FD_Interval ≠ 0 then
        let next_Interval : Int :=
          toInt (subU32 (toU32 (toInt p.m_FD_Interval)) (toU32 (toInt ts) % p.m_FD_Interval))
        if next_Interval < next then next_Interval else next
      else next
    next

/-- Method `Processing::AddStep`: `find(...) == end()` is "the index of the
first occurrence is the length". -/
def Processing.AddStep (p : Processing Freq) (step : Nat) : Processing Freq :=
  if p.m_ProcessSteps.length = 0 then
    { p with m_ProcessSteps := p.m_ProcessSteps ++ [step] }
  else if p.m_ProcessSteps.indexOf step = p.m_ProcessSteps.length then
    { p with m_ProcessSteps := p.m_ProcessSteps ++ [step] }
  else p

/-- Method `Processing::AddSteps`: the loop over `steps.at(0)`, `steps.at(1)`, ... -/
def Processing.AddSteps (p : Processing Freq) : List Nat → Processing Freq
  | [] => p
  | step :: rest => Processing.AddSteps (p.AddStep step) rest

/-- Method `Processing::AddFrequency(double freq)`.  The two collaborators are
parameters: `nyquist freq` is `CalcNyquistNum(freq,Op->GetTimestep())` and
`opNyquist` is `Op->GetNumberOfNyquistTimesteps()`.  The messages written to
`cerr` are not part of the state; the warning branch changes nothing. -/
def Processing.AddFrequency (nyquist : Freq → Nat) (opNyquist : Nat)
    (p : Processing Freq) (freq : Freq) : Processing Freq :=
  let nyquistTS : Nat := nyquist freq
  if nyquistTS = 0 then p
  else
    let fd : Nat := if p.m_FD_Interval = 0 then opNyquist else p.m_FD_Interval
    let fd : Nat := if fd > nyquistTS then nyquistTS else fd
    { p with m_FD_Interval := fd, m_FD_Samples := p.m_FD_Samples ++ [freq] }

/-- Method `Processing::AddFrequency(vector<double> *freqs)`: the loop over
`freqs->at(0)`, `freqs->at(1)`, ... -/
def Processing.AddFrequencyVec (nyquist : Freq → Nat) (opNyquist : Nat)
    (p : Processing Freq) : List Freq → Processing Freq
  | [] => p
  | freq :: rest =>
    Processing.AddFrequencyVec nyquist opNyquist (p.AddFrequency nyquist opNyquist freq) rest

/-- What a call of `Processing::Dump_FD_Data` does: return at once without a
message, write the size error to `cerr` and return, or open the file and write
one row per value. -/
inductive DumpOutcome (Freq Val : Type) where
  | skipped : DumpOutcome Freq Val
  | sizeError : DumpOutcome Freq Val
  | written (rows : List (Freq × Val)) : DumpOutcome Freq Val

/-- Method `Processing::Dump_FD_Data`: the two guards and the rows of the file
(row `n` pairs `m_FD_Samples.at(n)` with `value.at(n)`; the number formatting,
the factor and the time stamp of the header are left out). -/
def Processing.Dump_FD_Data {Val : Type} (p : Processing Freq) (value : List Val) :
    DumpOutcome Freq Val :=
  if value.length = 0 then DumpOutcome.skipped
  else if value.length ≠ p.m_FD_Samples.length then DumpOutcome.sizeError
  else DumpOutcome.written (p.m_FD_Samples.zip value)

/-- Whether the call opened (created) the output file. -/
def DumpOutcome.fileProduced {Val : Type} : DumpOutcome Freq Val → Bool
  | DumpOutcome.written _ => true
  | _ => false

/-- Whether the call wrote the size error to `cerr`. -/
def DumpOutcome.errorReported {Val : Type} : DumpOutcome Freq Val → Bool
  | DumpOutcome.sizeError => true
  | _ => false

/-! ## The two queries with their failure points

The same two member functions, with the operations that can fail written as
such: `vector::at` throws on an index outside the vector and `%` by zero is
undefined.  `none` stands for either failure. -/

/-- Bounds-checked access `v.at(i)`. -/
def atE (v : List Nat) (i : Nat) : Option Nat := v[i]?

/-- Remainder `a % b` of two `unsigned int` values. -/
def remE (a b : Nat) : Option Nat := if b = 0 then none else some (a % b)

/-- Method `Processing::CheckTimestep`, failing where the source can fail. -/
def Processing.CheckTimestepE (p : Processing Freq) (ts : Nat) :
    Option (Bool × Processing Freq) := do
  if p.m_ProcessSteps.length > p.m_PS_pos then
    let s ← atE p.m_ProcessSteps p.m_PS_pos
    if s = ts then
      return (true, { p with m_PS_pos := p.m_PS_pos + 1 })
  if p.ProcessInterval ≠ 0 then
    let r ← remE ts p.ProcessInterval
    if r = 0 then return (true, p)
  if p.m_FD_Interval ≠ 0 then
    let r ← remE ts p.m_FD_Interval
    if r = 0 then return (true, p)
  return (false, p)

/-- Method `Processing::GetNextInterval`, failing where the source can fail. -/
def Processing.GetNextIntervalE (p : Processing Freq) (ts : Nat) : Option Int := do
  if p.Enabled = false then return -1
  let mut next : Int := INT_MAX
  if p.m_ProcessSteps.length > p.m_PS_pos then
    let s ← atE p.m_ProcessSteps p.m_PS_pos
    next := wrapInt (toInt s - toInt ts)
  if p.ProcessInterval ≠ 0 then
    let r ← remE (toU32 (toInt ts)) p.ProcessInterval
    let next_Interval : Int := toInt (subU32 (toU32 (toInt p.ProcessInterval)) r)
    if next_Interval < next then
      next := next_Interval
  if p.m_FD_Interval ≠ 0 then
    let r ← remE (toU32 (toInt ts)) p.m_FD_Interval
    let next_Interval : Int := toInt (subU32 (toU32 (toInt p.m_FD_Interval)) r)
    if next_Interval < next then
      next := next_Interval
  return next

/-- One call of a member function that changes the trigger state. -/
inductive Call (Freq : Type) where
  | addStep (step : Nat) : Call Freq
  | addSteps (steps : List Nat) : Call Freq
  | addFrequency (freq : Freq) : Call Freq
  | addFrequencyVec (freqs : List Freq) : Call Freq
  | checkTimestep (ts : Nat) : Call Freq
  | reset : Call Freq

/-- The unit after one call. -/
def Call.run (nyquist : Freq → Nat) (opNyquist : Nat) (p : Processing Freq) :
    Call Freq → Processing Freq
  | Call.addStep step => p.AddStep step
  | Call.addSteps steps => p.AddSteps steps
  | Call.addFrequency freq => p.AddFrequency nyquist opNyquist freq
  | Call.addFrequencyVec freqs => p.AddFrequencyVec nyquist opNyquist freqs
  | Call.checkTimestep ts => (p.CheckTimestep ts).2
  | Call.reset => p.Reset

/-! ## The aggregate -/

/-- The loop of `ProcessingArray::Process` over the remaining units, with the
running value `nextProcess`.  `proc` is the virtual `Processing::Process` of a
unit: its returned value and the unit after the call. -/
def ProcessingArray.Process.loop {α : Type} (proc : α → Int × α) :
    List α → Int → Int × List α
  | [], nextProcess => (nextProcess, [])
  | u :: rest, nextProcess =>
    let step : Int := (proc u).1
    let r := ProcessingArray.Process.loop proc rest
      (if step > 0 ∧ step < nextProcess then step else nextProcess)
    (r.1, (proc u).2 :: r.2)

/-- Method `ProcessingArray::Process`: `maxInterval` is the `unsigned int`
member, `ProcessArray` the units in insertion order; `int nextProcess=maxInterval`
converts the seed to `int`. -/
def ProcessingArray.Process {α : Type} (proc : α → Int × α) (maxInterval : Nat)
    (ProcessArray : List α) : Int × List α :=
  ProcessingArray.Process.loop proc ProcessArray (toInt maxInterval)

/-- Method `ProcessingArray::Reset`: the loop calling the (virtual) `Reset` of
every unit, given as `reset`. -/
def ProcessingArray.Reset {α : Type} (reset : α → α) : List α → List α
  | [] => []
  | u :: rest => reset u :: ProcessingArray.Reset reset rest

/-! ## Driving loops

The loop that drives a unit belongs to the engine and is not part of
`processing.cpp`; the two runs below are the ones the specification describes. -/

/-- Modelled from the spec: the engine calls `CheckTimestep` once per global
timestep.  `pollRun n p t` polls the `n` steps `t, t+1, ...` starting in state
`p` and lists each step with the returned flag. -/
def pollRun : Nat → Processing Freq → Nat → List (Nat × Bool)
  | 0, _, _ => []
  | n + 1, p, t => (t, (p.CheckTimestep t).1) :: pollRun n (p.CheckTimestep t).2 (t + 1)

/-- The state of the unit after the `n` polls of `pollRun n p t`. -/
def pollState : Nat → Processing Freq → Nat → Processing Freq
  | 0, p, _ => p
  | n + 1, p, t => pollState n (p.CheckTimestep t).2 (t + 1)

/-- Modelled from the spec: the engine calls `CheckTimestep`, then skips the
interval `GetNextInterval` reports, while the step is at most the horizon `N`.
Each entry lists the step, the returned flag and the interval taken after the
check; `fuel` bounds the number of iterations. -/
def skipRun (N : Nat) : Nat → Processing Freq → Nat → List (Nat × Bool × Int)
  | 0, _, _ => []
  | fuel + 1, p, t =>
    if t ≤ N then
      (t, (p.CheckTimestep t).1, (p.CheckTimestep t).2.GetNextInterval t)
        :: skipRun N fuel (p.CheckTimestep t).2
            ((t : Int) + (p.CheckTimestep t).2.GetNextInterval t).toNat
    else []

/-- The steps at which a polling run fired. -/
def firedPoll (l : List (Nat × Bool)) : List Nat :=
  (l.filter (fun r => r.2)).map (fun r => r.1)

/-- The steps at which a skip-driven run fired. -/
def firedSkip (l : List (Nat × Bool × Int)) : List Nat :=
  (l.filter (fun r => r.2.1)).map (fun r => r.1)

/-! ## Reference definitions, written from the specification -/

/-- The explicit candidate of the look-ahead: the distance from the current
step to the step under the cursor, `INT_MAX` when no explicit step is pending. -/
def explicitCand (p : Processing Freq) (ts : Nat) : Int :=
  if h : p.m_PS_pos < p.m_ProcessSteps.length then
    ((p.m_ProcessSteps.get ⟨p.m_PS_pos, h⟩ : Nat) : Int) - (ts : Int)
  else INT_MAX

/-- The candidate distances of the active criteria at step `ts` (specification
4.2): `explicitSteps[cursor] - t` for a pending explicit step,
`periodicInterval - (t mod periodicInterval)` and `fdInterval - (t mod fdInterval)`
for a nonzero interval. -/
def activeCandidates (p : Processing Freq) (ts : Nat) : List Int :=
  (if h : p.m_PS_pos < p.m_ProcessSteps.length then
      [((p.m_ProcessSteps.get ⟨p.m_PS_pos, h⟩ : Nat) : Int) - (ts : Int)] else [])
  ++ (if p.ProcessInterval ≠ 0 then
      [(p.ProcessInterval : Int) - ((ts % p.ProcessInterval : Nat) : Int)] else [])
  ++ (if p.m_FD_Interval ≠ 0 then
      [(p.m_FD_Interval : Int) - ((ts % p.m_FD_Interval : Nat) : Int)] else [])

/-- A sequence with every repeated value removed except its first occurrence,
in the original order. -/
def firstOccurrences : List Nat → List Nat
  | [] => []
  | x :: xs => x :: (firstOccurrences xs).filter (fun y => y ≠ x)

/-! ## Concrete units used in the examples -/

/-- A unit with explicit steps `[7, 12]`, periodic interval 10 and FD interval 4. -/
def sampleUnit : Processing Nat :=
  { Enabled := true, m_PS_pos := 0, m_ProcessSteps := [7, 12], ProcessInterval := 10,
    m_FD_Interval := 4, m_FD_Samples := [] }

/-- A new unit after `AddStep(5)` and `AddStep(15)`. -/
def scenarioUnit : Processing Nat :=
  ((Processing.new : Processing Nat).AddStep 5).AddStep 15

/-- A new unit after `AddStep(9)`: the only explicit step is 9. -/
def overdueUnit : Processing Nat :=
  (Processing.new : Processing Nat).AddStep 9

/-- A new unit with the periodic interval set to `2^32 - 1`. -/
def hugeIntervalUnit : Processing Nat :=
  { (Processing.new : Processing Nat) with ProcessInterval := 4294967295 }

/-- A unit of the aggregate examples: its `Process()` returns the stored value. -/
def reportValue (s : Int) : Int × Int := (s, s)

/-- A disabled unit with explicit steps, a periodic and an FD interval. -/
def disabledUnit : Processing Nat :=
  { Enabled := false, m_PS_pos := 0, m_ProcessSteps := [3, 8], ProcessInterval := 5,
    m_FD_Interval := 2, m_FD_Samples := [] }

/-- Nyquist counts of the frequency examples: frequency `f` needs `100 / f`
timesteps per sample (0 for frequencies above 100). -/
def sampleNyquist (f : Nat) : Nat := 100 / f

/-- A unit that monitors the single frequency 10. -/
def oneFrequencyUnit : Processing Nat :=
  (Processing.new : Processing Nat).AddFrequency sampleNyquist 50 10

/-- A new unit with the periodic interval set to 10. -/
def periodicUnit : Processing Nat :=
  { (Processing.new : Processing Nat) with ProcessInterval := 10 }

/-- An enabled unit with the overdue explicit step 5 and periodic interval 10. -/
def maskedUnit : Processing Nat :=
  { (Processing.new : Processing Nat) with m_ProcessSteps := [5], ProcessInterval := 10 }

/-- A unit with the explicit steps `[a, b]`, cursor `c` and no interval trigger. -/
def twoStepUnit (a b c : Nat) : Processing Freq :=
  { Enabled := true, m_PS_pos := c, m_ProcessSteps := [a, b], ProcessInterval := 0,
    m_FD_Interval := 0, m_FD_Samples := [] }

/-! ## Machine-integer lemmas -/

theorem toInt_of_lt {u : Nat} (h : u < 2147483648) : toInt u = (u : Int) := by
  unfold toInt
  have h1 : u % 4294967296 = u := Nat.mod_eq_of_lt (by omega)
  rw [h1, if_pos h]

theorem toU32_natCast {u : Nat} (h : u < 4294967296) : toU32 (u : Int) = u := by
  unfold toU32
  omega

theorem subU32_of_le {a b : Nat} (hb : b ≤ a) (ha : a < 4294967296) : subU32 a b = a - b := by
  unfold subU32
  omega

theorem wrapInt_of_range {i : Int} (h1 : -2147483648 ≤ i) (h2 : i < 2147483648) :
    wrapInt i = i := by
  unfold wrapInt
  omega

/-- The value of `(int)I - (int)ts % I` for an interval and a step below `2^31`. -/
theorem next_Interval_val {I ts : Nat} (hI0 : I ≠ 0) (hI : I < 2147483648)
    (hts : ts < 2147483648) :
    toInt (subU32 (toU32 (toInt I)) (toU32 (toInt ts) % I)) = (I : Int) - ((ts % I : Nat) : Int) := by
  have hr : ts % I < I := Nat.mod_lt _ (Nat.pos_of_ne_zero hI0)
  rw [toInt_of_lt hI, toInt_of_lt hts, toU32_natCast (by omega), toU32_natCast (by omega),
    subU32_of_le (by omega) (by omega), toInt_of_lt (by omega)]
  omega

/-- The explicit-step distance `(int)s - (int)ts` for values below `2^31`. -/
theorem explicit_val {s ts : Nat} (hs : s < 2147483648) (hts : ts < 2147483648) :
    wrapInt (toInt s - toInt ts) = (s : Int) - (ts : Int) := by
  rw [toInt_of_lt hs, toInt_of_lt hts]
  exact wrapInt_of_range (by omega) (by omega)

/-! ## Arithmetic of the interval triggers -/

/-- A multiple of `I` after `t` is at least `I - t % I` steps away. -/
theorem multiple_gap {I t T : Nat} (hI0 : I ≠ 0) (htT : t < T) (hT : T % I = 0) :
    t + (I - t % I) ≤ T := by
  have hr : t % I < I := Nat.mod_lt _ (Nat.pos_of_ne_zero hI0)
  obtain ⟨k, hk⟩ : I ∣ T := Nat.dvd_of_mod_eq_zero hT
  have ht : I * (t / I) + t % I = t := Nat.div_add_mod t I
  have hq : t / I < k := by
    by_contra hcon
    have hle : k ≤ t / I := Nat.le_of_not_lt hcon
    have : I * k ≤ I * (t / I) := Nat.mul_le_mul_left I hle
    omega
  have : I * (t / I + 1) ≤ I * k := Nat.mul_le_mul_left I hq
  rw [Nat.mul_add, Nat.mul_one] at this
  omega

/-- The step `t + (I - t % I)` is a multiple of `I`. -/
theorem next_multiple {I t : Nat} (hI0 : I ≠ 0) : (t + (I - t % I)) % I = 0 := by
  have hr : t % I < I := Nat.mod_lt _ (Nat.pos_of_ne_zero hI0)
  have ht : I * (t / I) + t % I = t := Nat.div_add_mod t I
  have : t + (I - t % I) = I * (t / I + 1) := by
    rw [Nat.mul_add, Nat.mul_one]; omega
  rw [this]
  exact Nat.mul_mod_right _ _

/-! ## Unfolding the two queries -/

theorem CheckTimestep_fst (p : Processing Freq) (ts : Nat) :
    (p.CheckTimestep ts).1 = true ↔
      ((∃ h : p.m_PS_pos < p.m_ProcessSteps.length, p.m_ProcessSteps.get ⟨p.m_PS_pos, h⟩ = ts)
        ∨ (p.ProcessInterval ≠ 0 ∧ ts % p.ProcessInterval = 0)
        ∨ (p.m_FD_Interval ≠ 0 ∧ ts % p.m_FD_Interval = 0)) := by
  have hint : Processing.CheckTimestep.intervals p ts = true ↔
      ((p.ProcessInterval ≠ 0 ∧ ts % p.ProcessInterval = 0)
        ∨ (p.m_FD_Interval ≠ 0 ∧ ts % p.m_FD_Interval = 0)) := by
    unfold Processing.CheckTimestep.intervals
    split_ifs with h1 h2
    · exact ⟨fun _ => Or.inl h1, fun _ => rfl⟩
    · exact ⟨fun _ => Or.inr h2, fun _ => rfl⟩
    · exact ⟨fun h => h.elim, fun h => h.elim (fun a => (h1 a).elim) (fun a => (h2 a).elim)⟩
  unfold Processing.CheckTimestep
  by_cases h : p.m_ProcessSteps.length > p.m_PS_pos
  · by_cases he : p.m_ProcessSteps.get ⟨p.m_PS_pos, h⟩ = ts
    · rw [dif_pos h, if_pos he]
      exact ⟨fun _ => Or.inl ⟨h, he⟩, fun _ => rfl⟩
    · rw [dif_pos h, if_neg he]
      constructor
      · intro hf
        exact Or.inr (hint.mp hf)
      · rintro (⟨_, h3⟩ | h3)
        · exact (he h3).elim
        · exact hint.mpr h3
  · rw [dif_neg h]
    constructor
    · intro hf
      exact Or.inr (hint.mp hf)
    · rintro (⟨h3, _⟩ | h3)
      · exact (h h3).elim
      · exact hint.mpr h3

/-- `GetNextInterval` of an enabled unit with all values below `2^31`, without
the machine conversions. -/
theorem GetNextInterval_eq (p : Processing Freq) (ts : Nat)
    (hen : p.Enabled = true)
    (hsteps : ∀ s ∈ p.m_ProcessSteps, s < 2147483648)
    (hP : p.ProcessInterval < 2147483648) (hF : p.m_FD_Interval < 2147483648)
    (hts : ts < 2147483648) :
    p.GetNextInterval ts =
      (let n1 : Int := explicitCand p ts
       let n2 : Int := if p.ProcessInterval ≠ 0 ∧
           (p.ProcessInterval : Int) - ((ts % p.ProcessInterval : Nat) : Int) < n1
         then (p.ProcessInterval : Int) - ((ts % p.ProcessInterval : Nat) : Int) else n1
       if p.m_FD_Interval ≠ 0 ∧
           (p.m_FD_Interval : Int) - ((ts % p.m_FD_Interval : Nat) : Int) < n2
         then (p.m_FD_Interval : Int) - ((ts % p.m_FD_Interval : Nat) : Int) else n2) := by
  unfold Processing.GetNextInterval explicitCand
  simp only [hen, Bool.true_eq_false, if_false]
  have e1 : ∀ h : p.m_ProcessSteps.length > p.m_PS_pos,
      wrapInt (toInt (p.m_ProcessSteps.get ⟨p.m_PS_pos, h⟩) - toInt ts)
        = ((p.m_ProcessSteps.get ⟨p.m_PS_pos, h⟩ : Nat) : Int) - (ts : Int) :=
    fun h => explicit_val (hsteps _ (List.get_mem _ _ _)) hts
  by_cases hc : p.m_ProcessSteps.length > p.m_PS_pos
  · have hc2 : p.m_PS_pos < p.m_ProcessSteps.length := hc
    simp only [hc, hc2, dite_true, e1]
    by_cases hP0 : p.ProcessInterval ≠ 0 <;> by_cases hF0 : p.m_FD_Interval ≠ 0
    · simp only [hP0, hF0, if_true, true_and, ne_eq, not_false_eq_true,
        next_Interval_val hP0 hP hts, next_Interval_val hF0 hF hts]
    · simp only [hP0, hF0, if_true, if_false, true_and, false_and, ne_eq, not_false_eq_true,
        next_Interval_val hP0 hP hts]
    · simp only [hP0, hF0, if_true, if_false, true_and, false_and, ne_eq, not_false_eq_true,
        next_Interval_val hF0 hF hts]
    · simp only [hP0, hF0, if_false, false_and]
  · have hc2 : ¬ p.m_PS_pos < p.m_ProcessSteps.length := hc
    simp only [hc, hc2, dite_false]
    by_cases hP0 : p.ProcessInterval ≠ 0 <;> by_cases hF0 : p.m_FD_Interval ≠ 0
    · simp only [hP0, hF0, if_true, true_and, ne_eq, not_false_eq_true,
        next_Interval_val hP0 hP hts, next_Interval_val hF0 hF hts]
    · simp only [hP0, hF0, if_true, if_false, true_and, false_and, ne_eq, not_false_eq_true,
        next_Interval_val hP0 hP hts]
    · simp only [hP0, hF0, if_true, if_false, true_and, false_and, ne_eq, not_false_eq_true,
        next_Interval_val hF0 hF hts]
    · simp only [hP0, hF0, if_false, false_and]

/-- Under the bounds, an enabled unit's `GetNextInterval` is below every active
candidate and equals one of them (or `INT_MAX` when none is active). -/
theorem GetNextInterval_bounds (p : Processing Freq) (ts : Nat)
    (hen : p.Enabled = true)
    (hsteps : ∀ s ∈ p.m_ProcessSteps, s < 2147483648)
    (hP : p.ProcessInterval < 2147483648) (hF : p.m_FD_Interval < 2147483648)
    (hts : ts < 2147483648) :
    (p.GetNextInterval ts ≤ explicitCand p ts)
    ∧ (p.ProcessInterval ≠ 0 →
        p.GetNextInterval ts ≤ (p.ProcessInterval : Int) - ((ts % p.ProcessInterval : Nat) : Int))
    ∧ (p.m_FD_Interval ≠ 0 →
        p.GetNextInterval ts ≤ (p.m_FD_Interval : Int) - ((ts % p.m_FD_Interval : Nat) : Int))
    ∧ ((p.m_PS_pos < p.m_ProcessSteps.length ∧ p.GetNextInterval ts = explicitCand p ts)
      ∨ (p.ProcessInterval ≠ 0 ∧
          p.GetNextInterval ts = (p.ProcessInterval : Int) - ((ts % p.ProcessInterval : Nat) : Int))
      ∨ (p.m_FD_Interval ≠ 0 ∧
          p.GetNextInterval ts = (p.m_FD_Interval : Int) - ((ts % p.m_FD_Interval : Nat) : Int))
      ∨ (¬ p.m_PS_pos < p.m_ProcessSteps.length ∧ p.ProcessInterval = 0 ∧ p.m_FD_Interval = 0
          ∧ p.GetNextInterval ts = INT_MAX)) := by
  rw [GetNextInterval_eq p ts hen hsteps hP hF hts]
  have hcand : ¬ p.m_PS_pos < p.m_ProcessSteps.length → explicitCand p ts = 2147483647 := by
    intro h
    unfold explicitCand
    rw [dif_neg h]
    rfl
  have hmax : INT_MAX = 2147483647 := rfl
  generalize explicitCand p ts = e at hcand ⊢
  have hrP : p.ProcessInterval ≠ 0 → ts % p.ProcessInterval < p.ProcessInterval :=
    fun h => Nat.mod_lt _ (Nat.pos_of_ne_zero h)
  have hrF : p.m_FD_Interval ≠ 0 → ts % p.m_FD_Interval < p.m_FD_Interval :=
    fun h => Nat.mod_lt _ (Nat.pos_of_ne_zero h)
  generalize ts % p.ProcessInterval = rP at hrP ⊢
  generalize ts % p.m_FD_Interval = rF at hrF ⊢
  rw [hmax]
  simp only []
  by_cases hc : p.m_PS_pos < p.m_ProcessSteps.length
  · split_ifs with h1 h2 h2
    · refine ⟨by omega, fun _ => by omega, fun _ => by omega, ?_⟩
      exact Or.inr (Or.inr (Or.inl ⟨h2.1, rfl⟩))
    · refine ⟨by omega, fun _ => by omega, fun h => ?_, ?_⟩
      · have := hrF h
        omega
      · exact Or.inr (Or.inl ⟨h1.1, rfl⟩)
    · refine ⟨by omega, fun h => ?_, fun _ => by omega, ?_⟩
      · have := hrP h
        omega
      · exact Or.inr (Or.inr (Or.inl ⟨h2.1, rfl⟩))
    · refine ⟨by omega, fun h => ?_, fun h => ?_, ?_⟩
      · have := hrP h
        omega
      · have := hrF h
        omega
      · exact Or.inl ⟨hc, rfl⟩
  · have he := hcand hc
    subst he
    split_ifs with h1 h2 h2
    · refine ⟨by omega, fun _ => by omega, fun _ => by omega, ?_⟩
      exact Or.inr (Or.inr (Or.inl ⟨h2.1, rfl⟩))
    · refine ⟨by omega, fun _ => by omega, fun h => ?_, ?_⟩
      · have := hrF h
        omega
      · exact Or.inr (Or.inl ⟨h1.1, rfl⟩)
    · refine ⟨by omega, fun h => ?_, fun _ => by omega, ?_⟩
      · have := hrP h
        omega
      · exact Or.inr (Or.inr (Or.inl ⟨h2.1, rfl⟩))
    · by_cases hP0 : p.ProcessInterval = 0
      · by_cases hF0 : p.m_FD_Interval = 0
        · exact ⟨le_refl _, fun h => (h hP0).elim, fun h => (h hF0).elim,
            Or.inr (Or.inr (Or.inr ⟨hc, hP0, hF0, rfl⟩))⟩
        · have := hrF hF0
          refine ⟨le_refl _, fun h => (h hP0).elim, fun _ => by omega, ?_⟩
          exact Or.inr (Or.inr (Or.inl ⟨hF0, by omega⟩))
      · have := hrP hP0
        refine ⟨le_refl _, fun _ => by omega, fun h => ?_, ?_⟩
        · have := hrF h
          omega
        · exact Or.inr (Or.inl ⟨hP0, by omega⟩)

/-! ## Firing decision and look-ahead -/

/-- C1: for every unit state and every step `t`, with the explicit steps, both
intervals and `t` below `2^31`: if `CheckTimestep` in that state returns true at
a step `T > t`, then `GetNextInterval` at `t` is at most `T - t`; equivalently
`CheckTimestep` returns false at every step strictly between `t` and
`t + GetNextInterval(t)`.  (No bound on `T` is needed.) -/
theorem fire_implies_lookahead_bound (p : Processing Freq) (t : Nat)
    (hsteps : ∀ s ∈ p.m_ProcessSteps, s < 2147483648)
    (hP : p.ProcessInterval < 2147483648) (hF : p.m_FD_Interval < 2147483648)
    (ht : t < 2147483648) :
    (∀ T : Nat, t < T → (p.CheckTimestep T).1 = true →
        p.GetNextInterval t ≤ (T : Int) - (t : Int))
    ∧ (∀ s : Nat, t < s → (s : Int) < (t : Int) + p.GetNextInterval t →
        (p.CheckTimestep s).1 = false) := by
  have main : ∀ T : Nat, t < T → (p.CheckTimestep T).1 = true →
      p.GetNextInterval t ≤ (T : Int) - (t : Int) := by
    intro T htT hfire
    by_cases hen : p.Enabled = true
    · obtain ⟨hE, hPle, hFle, _⟩ := GetNextInterval_bounds p t hen hsteps hP hF ht
      rcases (CheckTimestep_fst p T).mp hfire with ⟨h, he⟩ | ⟨h0, hm⟩ | ⟨h0, hm⟩
      · have : explicitCand p t = (T : Int) - (t : Int) := by
          unfold explicitCand
          rw [dif_pos h, he]
        omega
      · have h1 := hPle h0
        have h2 := multiple_gap h0 htT hm
        have h3 : t % p.ProcessInterval < p.ProcessInterval :=
          Nat.mod_lt _ (Nat.pos_of_ne_zero h0)
        omega
      · have h1 := hFle h0
        have h2 := multiple_gap h0 htT hm
        have h3 : t % p.m_FD_Interval < p.m_FD_Interval :=
          Nat.mod_lt _ (Nat.pos_of_ne_zero h0)
        omega
    · have hd : p.Enabled = false := by
        cases hb : p.Enabled
        · rfl
        · exact (hen hb).elim
      have : p.GetNextInterval t = -1 := by
        unfold Processing.GetNextInterval
        rw [if_pos hd]
      omega
  refine ⟨main, ?_⟩
  intro s hts hlt
  cases hb : (p.CheckTimestep s).1
  · rfl
  · have := main s hts hb
    omega

/-- C2: for an enabled unit with an active criterion (a pending explicit step,
a nonzero periodic interval or a nonzero FD interval) and values below `2^31`,
the step `t + GetNextInterval(t)` is a valid (non-negative) step at which
`CheckTimestep`, in the same state, returns true. -/
theorem lookahead_reaches_firing_step (p : Processing Freq) (t : Nat)
    (hen : p.Enabled = true)
    (hact : p.m_PS_pos < p.m_ProcessSteps.length ∨ p.ProcessInterval ≠ 0 ∨ p.m_FD_Interval ≠ 0)
    (hsteps : ∀ s ∈ p.m_ProcessSteps, s < 2147483648)
    (hP : p.ProcessInterval < 2147483648) (hF : p.m_FD_Interval < 2147483648)
    (ht : t < 2147483648) :
    0 ≤ (t : Int) + p.GetNextInterval t
    ∧ (p.CheckTimestep ((t : Int) + p.GetNextInterval t).toNat).1 = true := by
  obtain ⟨_, _, _, hcases⟩ := GetNextInterval_bounds p t hen hsteps hP hF ht
  rcases hcases with ⟨hc, hv⟩ | ⟨h0, hv⟩ | ⟨h0, hv⟩ | ⟨hc, hP0, hF0, _⟩
  · have he : explicitCand p t = ((p.m_ProcessSteps.get ⟨p.m_PS_pos, hc⟩ : Nat) : Int) - (t : Int) := by
      unfold explicitCand
      rw [dif_pos hc]
    rw [hv, he]
    have hval : ((t : Int) + (((p.m_ProcessSteps.get ⟨p.m_PS_pos, hc⟩ : Nat) : Int) - (t : Int))).toNat
        = p.m_ProcessSteps.get ⟨p.m_PS_pos, hc⟩ := by omega
    refine ⟨by omega, ?_⟩
    rw [hval]
    exact (CheckTimestep_fst p _).mpr (Or.inl ⟨hc, rfl⟩)
  · have h3 : t % p.ProcessInterval < p.ProcessInterval := Nat.mod_lt _ (Nat.pos_of_ne_zero h0)
    rw [hv]
    have hval : ((t : Int) + ((p.ProcessInterval : Int) - ((t % p.ProcessInterval : Nat) : Int))).toNat
        = t + (p.ProcessInterval - t % p.ProcessInterval) := by omega
    refine ⟨by omega, ?_⟩
    rw [hval]
    exact (CheckTimestep_fst p _).mpr (Or.inr (Or.inl ⟨h0, next_multiple h0⟩))
  · have h3 : t % p.m_FD_Interval < p.m_FD_Interval := Nat.mod_lt _ (Nat.pos_of_ne_zero h0)
    rw [hv]
    have hval : ((t : Int) + ((p.m_FD_Interval : Int) - ((t % p.m_FD_Interval : Nat) : Int))).toNat
        = t + (p.m_FD_Interval - t % p.m_FD_Interval) := by omega
    refine ⟨by omega, ?_⟩
    rw [hval]
    exact (CheckTimestep_fst p _).mpr (Or.inr (Or.inr ⟨h0, next_multiple h0⟩))
  · rcases hact with h | h | h
    · exact (hc h).elim
    · exact (h hP0).elim
    · exact (h hF0).elim

/-- C3: `CheckTimestep` at step `t` returns true exactly when, in the state
before the call, (1) the cursor is inside the explicit-step list and the step
under it is `t`, or (2) the periodic interval is nonzero and divides `t`, or
(3) the FD interval is nonzero and divides `t`; the flag `Enabled` has no
influence on the result. -/
theorem CheckTimestep_true_iff (p : Processing Freq) (t : Nat) :
    ((p.CheckTimestep t).1 = true ↔
      ((∃ h : p.m_PS_pos < p.m_ProcessSteps.length, p.m_ProcessSteps.get ⟨p.m_PS_pos, h⟩ = t)
        ∨ (p.ProcessInterval ≠ 0 ∧ t % p.ProcessInterval = 0)
        ∨ (p.m_FD_Interval ≠ 0 ∧ t % p.m_FD_Interval = 0)))
    ∧ (∀ b : Bool, (({ p with Enabled := b } : Processing Freq).CheckTimestep t).1
        = (p.CheckTimestep t).1) := by
  refine ⟨CheckTimestep_fst p t, ?_⟩
  intro b
  exact Bool.eq_iff_iff.mpr ((CheckTimestep_fst _ t).trans (CheckTimestep_fst p t).symm)

/-- Witness of C1: explicit steps `[7, 12]`, periodic interval 10, FD interval 4,
current step 3; the unit fires at step 4 and the look-ahead at step 3 is `1`. -/
theorem fire_implies_lookahead_bound_witness :
    (3 < 4 ∧ (sampleUnit.CheckTimestep 4).1 = true)
    ∧ sampleUnit.GetNextInterval 3 ≤ ((4 : Nat) : Int) - ((3 : Nat) : Int) :=
  ⟨⟨by decide, by decide⟩,
    (fire_implies_lookahead_bound sampleUnit 3 (by decide) (by decide) (by decide)
      (by decide)).1 4 (by decide) (by decide)⟩

/-- Witness of C2: for the same unit at step 3 the look-ahead leads to step 4,
where the unit fires. -/
theorem lookahead_reaches_firing_step_witness :
    (sampleUnit.Enabled = true ∧ sampleUnit.m_PS_pos < sampleUnit.m_ProcessSteps.length)
    ∧ 0 ≤ ((3 : Nat) : Int) + sampleUnit.GetNextInterval 3
    ∧ (sampleUnit.CheckTimestep (((3 : Nat) : Int) + sampleUnit.GetNextInterval 3).toNat).1
        = true :=
  ⟨⟨by decide, by decide⟩,
    lookahead_reaches_firing_step sampleUnit 3 (by decide) (Or.inl (by decide)) (by decide)
      (by decide) (by decide) (by decide)⟩

/-- C4: `CheckTimestep` advances the cursor by exactly one when the step under
the cursor equals the current step (whatever the periodic and FD criteria say)
and leaves it unchanged otherwise; the explicit steps, both intervals, the
frequency samples and the flag `Enabled` are never changed. -/
theorem CheckTimestep_state_effect (p : Processing Freq) (t : Nat) :
    ((∃ h : p.m_PS_pos < p.m_ProcessSteps.length, p.m_ProcessSteps.get ⟨p.m_PS_pos, h⟩ = t) →
        (p.CheckTimestep t).1 = true ∧ (p.CheckTimestep t).2.m_PS_pos = p.m_PS_pos + 1)
    ∧ (¬ (∃ h : p.m_PS_pos < p.m_ProcessSteps.length, p.m_ProcessSteps.get ⟨p.m_PS_pos, h⟩ = t) →
        (p.CheckTimestep t).2.m_PS_pos = p.m_PS_pos)
    ∧ (p.CheckTimestep t).2.m_ProcessSteps = p.m_ProcessSteps
    ∧ (p.CheckTimestep t).2.ProcessInterval = p.ProcessInterval
    ∧ (p.CheckTimestep t).2.m_FD_Interval = p.m_FD_Interval
    ∧ (p.CheckTimestep t).2.m_FD_Samples = p.m_FD_Samples
    ∧ (p.CheckTimestep t).2.Enabled = p.Enabled := by
  unfold Processing.CheckTimestep
  by_cases h : p.m_ProcessSteps.length > p.m_PS_pos
  · by_cases he : p.m_ProcessSteps.get ⟨p.m_PS_pos, h⟩ = t
    · rw [dif_pos h, if_pos he]
      exact ⟨fun _ => ⟨rfl, rfl⟩, fun hn => (hn ⟨h, he⟩).elim, rfl, rfl, rfl, rfl, rfl⟩
    · rw [dif_pos h, if_neg he]
      exact ⟨fun ⟨_, h2⟩ => (he h2).elim, fun _ => rfl, rfl, rfl, rfl, rfl, rfl⟩
  · rw [dif_neg h]
    exact ⟨fun ⟨h1, _⟩ => (h h1).elim, fun _ => rfl, rfl, rfl, rfl, rfl, rfl⟩

/-- Scenario of C4: explicit steps `[5, 15]`, cursor 0, no interval trigger.
The call at step 5 fires and moves the cursor to 1, the call at step 15 fires
and moves it to 2, the call at step 25 does not fire and leaves it at 2. -/
theorem CheckTimestep_state_effect_witness :
    (scenarioUnit.CheckTimestep 5).1 = true
    ∧ (scenarioUnit.CheckTimestep 5).2.m_PS_pos = 1
    ∧ ((scenarioUnit.CheckTimestep 5).2.CheckTimestep 15).1 = true
    ∧ ((scenarioUnit.CheckTimestep 5).2.CheckTimestep 15).2.m_PS_pos = 2
    ∧ (((scenarioUnit.CheckTimestep 5).2.CheckTimestep 15).2.CheckTimestep 25).1 = false
    ∧ (((scenarioUnit.CheckTimestep 5).2.CheckTimestep 15).2.CheckTimestep 25).2.m_PS_pos = 2 :=
  ⟨((CheckTimestep_state_effect scenarioUnit 5).1 ⟨by decide, by decide⟩).1,
    ((CheckTimestep_state_effect scenarioUnit 5).1 ⟨by decide, by decide⟩).2,
    ((CheckTimestep_state_effect (scenarioUnit.CheckTimestep 5).2 15).1
      ⟨by decide, by decide⟩).1,
    ((CheckTimestep_state_effect (scenarioUnit.CheckTimestep 5).2 15).1
      ⟨by decide, by decide⟩).2,
    by decide,
    (CheckTimestep_state_effect ((scenarioUnit.CheckTimestep 5).2.CheckTimestep 15).2 25).2.1
      (by decide)⟩

theorem mem_activeCandidates (p : Processing Freq) (ts : Nat) (c : Int) :
    c ∈ activeCandidates p ts ↔
      ((∃ h : p.m_PS_pos < p.m_ProcessSteps.length,
          c = ((p.m_ProcessSteps.get ⟨p.m_PS_pos, h⟩ : Nat) : Int) - (ts : Int))
        ∨ (p.ProcessInterval ≠ 0 ∧
            c = (p.ProcessInterval : Int) - ((ts % p.ProcessInterval : Nat) : Int))
        ∨ (p.m_FD_Interval ≠ 0 ∧
            c = (p.m_FD_Interval : Int) - ((ts % p.m_FD_Interval : Nat) : Int))) := by
  unfold activeCandidates
  rw [List.mem_append, List.mem_append, or_assoc]
  refine or_congr ?_ (or_congr ?_ ?_)
  · by_cases h : p.m_PS_pos < p.m_ProcessSteps.length
    · rw [dif_pos h, List.mem_singleton]
      exact ⟨fun hc => ⟨h, hc⟩, fun ⟨_, hc⟩ => hc⟩
    · rw [dif_neg h]
      exact ⟨fun hc => absurd hc (List.not_mem_nil _), fun ⟨h1, _⟩ => (h h1).elim⟩
  · by_cases h : p.ProcessInterval ≠ 0
    · rw [if_pos h, List.mem_singleton]
      exact ⟨fun hc => ⟨h, hc⟩, fun ⟨_, hc⟩ => hc⟩
    · rw [if_neg h]
      exact ⟨fun hc => absurd hc (List.not_mem_nil _), fun ⟨h1, _⟩ => (h h1).elim⟩
  · by_cases h : p.m_FD_Interval ≠ 0
    · rw [if_pos h, List.mem_singleton]
      exact ⟨fun hc => ⟨h, hc⟩, fun ⟨_, hc⟩ => hc⟩
    · rw [if_neg h]
      exact ⟨fun hc => absurd hc (List.not_mem_nil _), fun ⟨h1, _⟩ => (h h1).elim⟩

theorem explicitCand_pending (p : Processing Freq) (ts : Nat)
    (h : p.m_PS_pos < p.m_ProcessSteps.length) :
    explicitCand p ts = ((p.m_ProcessSteps.get ⟨p.m_PS_pos, h⟩ : Nat) : Int) - (ts : Int) := by
  unfold explicitCand
  rw [dif_pos h]

theorem GetNextInterval_disabled (p : Processing Freq) (ts : Nat) (h : p.Enabled = false) :
    p.GetNextInterval ts = -1 := by
  unfold Processing.GetNextInterval
  rw [if_pos h]

/-- C5: for an enabled unit at step `t`, all values below `2^31`,
`GetNextInterval` is the minimum of the active candidates (it is one of them
and is below each of them) and is `INT_MAX = 2^31 - 1` when no criterion is
active.  `GetNextInterval` is a `const` member: it is a function of the state
and returns no new state. -/
theorem GetNextInterval_is_minimum (p : Processing Freq) (t : Nat)
    (hen : p.Enabled = true)
    (hsteps : ∀ s ∈ p.m_ProcessSteps, s < 2147483648)
    (hP : p.ProcessInterval < 2147483648) (hF : p.m_FD_Interval < 2147483648)
    (ht : t < 2147483648) :
    (activeCandidates p t ≠ [] → p.GetNextInterval t ∈ activeCandidates p t)
    ∧ (∀ c ∈ activeCandidates p t, p.GetNextInterval t ≤ c)
    ∧ (activeCandidates p t = [] → p.GetNextInterval t = 2147483647) := by
  obtain ⟨hE, hPle, hFle, hcases⟩ := GetNextInterval_bounds p t hen hsteps hP hF ht
  refine ⟨?_, ?_, ?_⟩
  · intro hne
    rw [mem_activeCandidates]
    rcases hcases with ⟨hc, hv⟩ | ⟨h0, hv⟩ | ⟨h0, hv⟩ | ⟨hc, hP0, hF0, _⟩
    · exact Or.inl ⟨hc, by rw [hv, explicitCand_pending p t hc]⟩
    · exact Or.inr (Or.inl ⟨h0, hv⟩)
    · exact Or.inr (Or.inr ⟨h0, hv⟩)
    · exfalso
      apply hne
      unfold activeCandidates
      rw [dif_neg hc, if_neg (not_not.mpr hP0), if_neg (not_not.mpr hF0)]
      rfl
  · intro c hc
    rcases (mem_activeCandidates p t c).mp hc with ⟨h, hv⟩ | ⟨h0, hv⟩ | ⟨h0, hv⟩
    · rw [hv, ← explicitCand_pending p t h]
      exact hE
    · rw [hv]
      exact hPle h0
    · rw [hv]
      exact hFle h0
  · intro hnil
    rcases hcases with ⟨hc, _⟩ | ⟨h0, _⟩ | ⟨h0, _⟩ | ⟨_, _, _, hv⟩
    · have : explicitCand p t - 0 ∈ activeCandidates p t := by
        rw [mem_activeCandidates]
        exact Or.inl ⟨hc, by rw [explicitCand_pending p t hc]; omega⟩
      rw [hnil] at this
      exact absurd this (List.not_mem_nil _)
    · have : (p.ProcessInterval : Int) - ((t % p.ProcessInterval : Nat) : Int)
          ∈ activeCandidates p t := by
        rw [mem_activeCandidates]
        exact Or.inr (Or.inl ⟨h0, rfl⟩)
      rw [hnil] at this
      exact absurd this (List.not_mem_nil _)
    · have : (p.m_FD_Interval : Int) - ((t % p.m_FD_Interval : Nat) : Int)
          ∈ activeCandidates p t := by
        rw [mem_activeCandidates]
        exact Or.inr (Or.inr ⟨h0, rfl⟩)
      rw [hnil] at this
      exact absurd this (List.not_mem_nil _)
    · exact hv

/-- Witness of C5: explicit steps `[7, 12]`, periodic interval 10, FD interval 4
at step 3: the candidates are `4`, `7` and `1`, the look-ahead is `1`. -/
theorem GetNextInterval_is_minimum_witness :
    activeCandidates sampleUnit 3 = [4, 7, 1]
    ∧ sampleUnit.GetNextInterval 3 = 1
    ∧ (∀ c ∈ activeCandidates sampleUnit 3, sampleUnit.GetNextInterval 3 ≤ c) :=
  ⟨by decide, by decide,
    (GetNextInterval_is_minimum sampleUnit 3 (by decide) (by decide) (by decide) (by decide)
      (by decide)).2.1⟩

/-- C6, counterexample: an enabled unit whose only explicit step is 9, asked at
current step 10, reports `9 - 10 = -1`: a negative value, equal to the value a
disabled unit reports.  So does an enabled unit with periodic interval
`2^32 - 1` at step 0, where the conversion to `int` wraps. -/
theorem enabled_unit_reports_negative :
    overdueUnit.Enabled = true ∧ overdueUnit.m_ProcessSteps = [9] ∧ overdueUnit.m_PS_pos = 0
    ∧ overdueUnit.GetNextInterval 10 = -1
    ∧ ¬ (0 ≤ overdueUnit.GetNextInterval 10)
    ∧ hugeIntervalUnit.Enabled = true ∧ hugeIntervalUnit.GetNextInterval 0 = -1 := by
  decide

/-- C6, amended: with all values below `2^31`, a disabled unit reports `-1`,
and an enabled unit reports a negative value exactly when the explicit step
under the cursor lies before the current step, in which case the value is the
(negative) distance to that step; otherwise the value is non-negative. -/
theorem GetNextInterval_negative_iff (p : Processing Freq) (t : Nat)
    (hsteps : ∀ s ∈ p.m_ProcessSteps, s < 2147483648)
    (hP : p.ProcessInterval < 2147483648) (hF : p.m_FD_Interval < 2147483648)
    (ht : t < 2147483648) :
    (p.Enabled = false → p.GetNextInterval t = -1)
    ∧ (p.Enabled = true →
        (p.GetNextInterval t < 0 ↔
          ∃ h : p.m_PS_pos < p.m_ProcessSteps.length, p.m_ProcessSteps.get ⟨p.m_PS_pos, h⟩ < t)
        ∧ (∀ h : p.m_PS_pos < p.m_ProcessSteps.length, p.m_ProcessSteps.get ⟨p.m_PS_pos, h⟩ < t →
            p.GetNextInterval t = ((p.m_ProcessSteps.get ⟨p.m_PS_pos, h⟩ : Nat) : Int) - (t : Int))
        ∧ ((¬ ∃ h : p.m_PS_pos < p.m_ProcessSteps.length,
              p.m_ProcessSteps.get ⟨p.m_PS_pos, h⟩ < t) → 0 ≤ p.GetNextInterval t)) := by
  refine ⟨GetNextInterval_disabled p t, ?_⟩
  intro hen
  obtain ⟨hE, hPle, hFle, hcases⟩ := GetNextInterval_bounds p t hen hsteps hP hF ht
  have hrP : p.ProcessInterval ≠ 0 → t % p.ProcessInterval < p.ProcessInterval :=
    fun h => Nat.mod_lt _ (Nat.pos_of_ne_zero h)
  have hrF : p.m_FD_Interval ≠ 0 → t % p.m_FD_Interval < p.m_FD_Interval :=
    fun h => Nat.mod_lt _ (Nat.pos_of_ne_zero h)
  have hmax : INT_MAX = 2147483647 := rfl
  have hiff : p.GetNextInterval t < 0 ↔
      ∃ h : p.m_PS_pos < p.m_ProcessSteps.length, p.m_ProcessSteps.get ⟨p.m_PS_pos, h⟩ < t := by
    constructor
    · intro hneg
      rcases hcases with ⟨hc, hv⟩ | ⟨h0, hv⟩ | ⟨h0, hv⟩ | ⟨_, _, _, hv⟩
      · rw [explicitCand_pending p t hc] at hv
        exact ⟨hc, by omega⟩
      · have := hrP h0
        omega
      · have := hrF h0
        omega
      · omega
    · rintro ⟨hc, hlt⟩
      rw [explicitCand_pending p t hc] at hE
      omega
  refine ⟨hiff, ?_, ?_⟩
  · intro hc hlt
    rcases hcases with ⟨_, hv⟩ | ⟨h0, hv⟩ | ⟨h0, hv⟩ | ⟨hnc, _, _, _⟩
    · rw [hv, explicitCand_pending p t hc]
    · have := hrP h0
      rw [explicitCand_pending p t hc] at hE
      omega
    · have := hrF h0
      rw [explicitCand_pending p t hc] at hE
      omega
    · exact (hnc hc).elim
  · intro hno
    by_contra hcon
    exact hno (hiff.mp (by omega))

/-- Witness of C6 (amended): the unit with explicit step 9 at step 10 satisfies
the bounds, is enabled and reports the negative distance `9 - 10`; at step 4 it
reports a non-negative value. -/
theorem GetNextInterval_negative_iff_witness :
    (overdueUnit.GetNextInterval 10 < 0 ↔
      ∃ h : overdueUnit.m_PS_pos < overdueUnit.m_ProcessSteps.length,
        overdueUnit.m_ProcessSteps.get ⟨overdueUnit.m_PS_pos, h⟩ < 10)
    ∧ 0 ≤ overdueUnit.GetNextInterval 4 :=
  ⟨((GetNextInterval_negative_iff overdueUnit 10 (by decide) (by decide) (by decide)
      (by decide)).2 (by decide)).1,
    ((GetNextInterval_negative_iff overdueUnit 4 (by decide) (by decide) (by decide)
      (by decide)).2 (by decide)).2.2 (by decide)⟩

/-! ## The aggregate reduction -/

theorem loop_fst_append {α : Type} (proc : α → Int × α) (pre post : List α) (n : Int) :
    (ProcessingArray.Process.loop proc (pre ++ post) n).1
      = (ProcessingArray.Process.loop proc post
          (ProcessingArray.Process.loop proc pre n).1).1 := by
  induction pre generalizing n with
  | nil => rfl
  | cons u rest ih =>
    simp only [List.cons_append, ProcessingArray.Process.loop]
    exact ih _

theorem loop_fst_cons_nonpos {α : Type} (proc : α → Int × α) (u : α) (post : List α) (n : Int)
    (h : (proc u).1 ≤ 0) :
    (ProcessingArray.Process.loop proc (u :: post) n).1
      = (ProcessingArray.Process.loop proc post n).1 := by
  simp only [ProcessingArray.Process.loop]
  rw [if_neg (by omega)]

/-- The loop returns the minimum of the seed and the positive reported values. -/
theorem loop_fst_min {α : Type} (proc : α → Int × α) (arr : List α) (n : Int) :
    (ProcessingArray.Process.loop proc arr n).1
        ∈ n :: (arr.map (fun u => (proc u).1)).filter (fun s => 0 < s)
    ∧ ∀ x ∈ n :: (arr.map (fun u => (proc u).1)).filter (fun s => 0 < s),
        (ProcessingArray.Process.loop proc arr n).1 ≤ x := by
  induction arr generalizing n with
  | nil =>
    simp [ProcessingArray.Process.loop]
  | cons u rest ih =>
    simp only [ProcessingArray.Process.loop, List.map_cons]
    by_cases hpos : 0 < (proc u).1
    · rw [List.filter_cons_of_pos (by simpa using hpos)]
      by_cases hlt : (proc u).1 < n
      · rw [if_pos ⟨hpos, hlt⟩]
        obtain ⟨hm, hle⟩ := ih (proc u).1
        refine ⟨List.mem_cons_of_mem _ hm, ?_⟩
        intro x hx
        rcases List.mem_cons.mp hx with rfl | hx
        · have := hle (proc u).1 (List.mem_cons_self _ _)
          omega
        · exact hle x hx
      · rw [if_neg (fun h => hlt h.2)]
        obtain ⟨hm, hle⟩ := ih n
        refine ⟨?_, ?_⟩
        · rcases List.mem_cons.mp hm with h | h
          · rw [h]
            exact List.mem_cons_self _ _
          · exact List.mem_cons_of_mem _ (List.mem_cons_of_mem _ h)
        · intro x hx
          rcases List.mem_cons.mp hx with rfl | hx
          · exact hle _ (List.mem_cons_self _ _)
          · rcases List.mem_cons.mp hx with rfl | hx
            · have := hle n (List.mem_cons_self _ _)
              omega
            · exact hle x (List.mem_cons_of_mem _ hx)
    · rw [List.filter_cons_of_neg (by simpa using hpos), if_neg (fun h => hpos h.1)]
      exact ih n

/-- C7, counterexample: with the `unsigned int` ceiling `maxInterval = 2^32 - 1`
and one unit reporting 5, the seed `int nextProcess=maxInterval` is `-1` and the
result is `-1`, which is not a member of `{maxInterval} ∪ {5}` (whose minimum is 5). -/
theorem aggregate_seed_wraps :
    (ProcessingArray.Process reportValue 4294967295 [5]).1 = -1
    ∧ (ProcessingArray.Process reportValue 4294967295 [5]).1
        ∉ (((4294967295 : Nat) : Int) :: ([5].map (fun u => (reportValue u).1)).filter
            (fun s => 0 < s)) := by
  decide

/-- C7, amended: for every `maxInterval` below `2^31`, every collection of
units and every per-unit `Process`, `ProcessingArray::Process` returns the
minimum of `{maxInterval}` united with the positive reported values: the result
is a member of that set and is below each of its members.  In particular it
is at most `maxInterval`, and a unit reporting a value `<= 0` (such as `-1`) can
be left out without changing it. -/
theorem aggregate_is_minimum {α : Type} (proc : α → Int × α) (maxInterval : Nat)
    (ProcessArray : List α) (hmax : maxInterval < 2147483648) :
    (ProcessingArray.Process proc maxInterval ProcessArray).1
        ∈ (maxInterval : Int) :: (ProcessArray.map (fun u => (proc u).1)).filter (fun s => 0 < s)
    ∧ (∀ x ∈ (maxInterval : Int) :: (ProcessArray.map (fun u => (proc u).1)).filter
          (fun s => 0 < s),
        (ProcessingArray.Process proc maxInterval ProcessArray).1 ≤ x)
    ∧ (ProcessingArray.Process proc maxInterval ProcessArray).1 ≤ (maxInterval : Int)
    ∧ (∀ (pre post : List α) (u : α), ProcessArray = pre ++ u :: post → (proc u).1 ≤ 0 →
        (ProcessingArray.Process proc maxInterval ProcessArray).1
          = (ProcessingArray.Process proc maxInterval (pre ++ post)).1) := by
  unfold ProcessingArray.Process
  rw [toInt_of_lt hmax]
  obtain ⟨hm, hle⟩ := loop_fst_min proc ProcessArray (maxInterval : Int)
  refine ⟨hm, hle, hle _ (List.mem_cons_self _ _), ?_⟩
  intro pre post u harr hu
  rw [harr, loop_fst_append, loop_fst_cons_nonpos proc u post _ hu, ← loop_fst_append]

/-- Witness of C7: unit values `5, 12, 3` and `maxInterval = 100` give 3. -/
theorem aggregate_is_minimum_witness :
    (ProcessingArray.Process reportValue 100 [5, 12, 3]).1 = 3
    ∧ (ProcessingArray.Process reportValue 100 [5, 12, 3]).1
        ∈ ((100 : Nat) : Int) :: ([5, 12, 3].map (fun u => (reportValue u).1)).filter
            (fun s => 0 < s) :=
  ⟨by decide, (aggregate_is_minimum reportValue 100 [5, 12, 3] (by decide)).1⟩

/-- C8: a disabled unit reports `GetNextInterval = -1` whatever its explicit
steps, cursor, intervals and the current step are; and when the units of a
collection report through any `Process` that returns `GetNextInterval` for a
disabled unit, the result of `ProcessingArray::Process` with a disabled unit
inserted at any position equals the result without it, for every
`maxInterval`. -/
theorem disabled_unit_excluded (proc : Processing Freq → Int × Processing Freq) (t : Nat)
    (p : Processing Freq) (hp : p.Enabled = false)
    (hproc : (proc p).1 = p.GetNextInterval t)
    (maxInterval : Nat) (pre post : List (Processing Freq)) :
    p.GetNextInterval t = -1
    ∧ (ProcessingArray.Process proc maxInterval (pre ++ p :: post)).1
        = (ProcessingArray.Process proc maxInterval (pre ++ post)).1 := by
  have hv := GetNextInterval_disabled p t hp
  refine ⟨hv, ?_⟩
  unfold ProcessingArray.Process
  rw [loop_fst_append, loop_fst_cons_nonpos proc p post _ (by rw [hproc, hv]; decide),
    ← loop_fst_append]

/-- Witness of C8: a disabled unit with explicit steps `[3, 8]`, periodic
interval 5 and FD interval 2, inserted between two enabled units that report
their `GetNextInterval` at step 1. -/
theorem disabled_unit_excluded_witness :
    disabledUnit.Enabled = false
    ∧ disabledUnit.GetNextInterval 1 = -1
    ∧ (ProcessingArray.Process (fun u => (u.GetNextInterval 1, u)) 100
          ([sampleUnit] ++ disabledUnit :: [scenarioUnit])).1
        = (ProcessingArray.Process (fun u => (u.GetNextInterval 1, u)) 100
          ([sampleUnit] ++ [scenarioUnit])).1 :=
  ⟨by decide,
    disabled_unit_excluded (fun u => (u.GetNextInterval 1, u)) 1 disabledUnit (by decide) rfl
      100 [sampleUnit] [scenarioUnit]⟩

/-! ## Explicit steps -/

theorem AddStep_steps (p : Processing Freq) (s : Nat) :
    (p.AddStep s).m_ProcessSteps
      = if s ∈ p.m_ProcessSteps then p.m_ProcessSteps else p.m_ProcessSteps ++ [s] := by
  unfold Processing.AddStep
  by_cases h0 : p.m_ProcessSteps.length = 0
  · have hnil : p.m_ProcessSteps = [] := List.length_eq_zero.mp h0
    rw [if_pos h0, hnil, if_neg (List.not_mem_nil s)]
  · rw [if_neg h0]
    by_cases hmem : s ∈ p.m_ProcessSteps
    · rw [if_neg (fun h => (List.indexOf_eq_length.mp h) hmem), if_pos hmem]
    · rw [if_pos (List.indexOf_eq_length.mpr hmem), if_neg hmem]

theorem AddStep_frame (p : Processing Freq) (s : Nat) :
    (p.AddStep s).m_PS_pos = p.m_PS_pos ∧ (p.AddStep s).Enabled = p.Enabled
    ∧ (p.AddStep s).ProcessInterval = p.ProcessInterval
    ∧ (p.AddStep s).m_FD_Interval = p.m_FD_Interval
    ∧ (p.AddStep s).m_FD_Samples = p.m_FD_Samples := by
  unfold Processing.AddStep
  split_ifs <;> exact ⟨rfl, rfl, rfl, rfl, rfl⟩

theorem AddSteps_eq_foldl (p : Processing Freq) (xs : List Nat) :
    p.AddSteps xs = xs.foldl Processing.AddStep p := by
  induction xs generalizing p with
  | nil => rfl
  | cons x rest ih =>
    simp only [Processing.AddSteps, List.foldl_cons]
    exact ih _

theorem filter_ne_of_filter_not_mem (L ys : List Nat) (x : Nat) (hx : x ∈ L) :
    (ys.filter (fun y => y ≠ x)).filter (fun y => y ∉ L) = ys.filter (fun y => y ∉ L) := by
  rw [List.filter_filter]
  apply List.filter_congr
  intro y _
  by_cases hy : y ∈ L
  · simp [hy]
  · have : y ≠ x := fun h => hy (h ▸ hx)
    simp [hy, this]

theorem filter_not_mem_append (L ys : List Nat) (x : Nat) :
    ys.filter (fun y => y ∉ L ++ [x])
      = (ys.filter (fun y => y ≠ x)).filter (fun y => y ∉ L) := by
  rw [List.filter_filter]
  apply List.filter_congr
  intro y _
  by_cases hy : y ∈ L <;> by_cases hyx : y = x <;> simp [hy, hyx]

/-- The explicit steps after a run of `AddStep` calls: the old list followed by
the first occurrences of the new values that were not in it. -/
theorem foldl_AddStep_steps (p : Processing Freq) (xs : List Nat) :
    (xs.foldl Processing.AddStep p).m_ProcessSteps
      = p.m_ProcessSteps ++ (firstOccurrences xs).filter (fun y => y ∉ p.m_ProcessSteps) := by
  induction xs generalizing p with
  | nil => simp [firstOccurrences]
  | cons x rest ih =>
    rw [List.foldl_cons, ih, AddStep_steps]
    by_cases hx : x ∈ p.m_ProcessSteps
    · rw [if_pos hx]
      simp only [firstOccurrences]
      rw [List.filter_cons_of_neg (by simpa using hx), filter_ne_of_filter_not_mem _ _ _ hx]
    · rw [if_neg hx]
      simp only [firstOccurrences]
      rw [List.filter_cons_of_pos (by simpa using hx), filter_not_mem_append,
        List.append_assoc, List.singleton_append]

theorem mem_firstOccurrences (xs : List Nat) (a : Nat) : a ∈ firstOccurrences xs ↔ a ∈ xs := by
  induction xs with
  | nil => simp [firstOccurrences]
  | cons x rest ih =>
    simp only [firstOccurrences, List.mem_cons, List.mem_filter, ih]
    by_cases hax : a = x <;> simp [hax]

theorem nodup_firstOccurrences (xs : List Nat) : (firstOccurrences xs).Nodup := by
  induction xs with
  | nil => simp [firstOccurrences]
  | cons x rest ih =>
    simp only [firstOccurrences]
    refine List.nodup_cons.mpr ⟨?_, ih.filter _⟩
    intro h
    have := (List.mem_filter.mp h).2
    simp at this

/-- C9: after any finite sequence of values has been passed one by one to
`AddStep` on a new unit, the explicit-step list holds no value twice and its
length is the number of distinct values of the sequence. -/
theorem AddStep_rejects_duplicates (xs : List Nat) :
    (xs.foldl Processing.AddStep (Processing.new : Processing Freq)).m_ProcessSteps.Nodup
    ∧ (xs.foldl Processing.AddStep (Processing.new : Processing Freq)).m_ProcessSteps.length
        = xs.toFinset.card := by
  have hsteps : (xs.foldl Processing.AddStep (Processing.new : Processing Freq)).m_ProcessSteps
      = firstOccurrences xs := by
    rw [foldl_AddStep_steps]
    simp [Processing.new]
  rw [hsteps]
  refine ⟨nodup_firstOccurrences xs, ?_⟩
  rw [← List.toFinset_card_of_nodup (nodup_firstOccurrences xs)]
  congr 1
  ext a
  simp [mem_firstOccurrences]

/-- C10: `AddStep(s)` leaves the list `L` as it is when `s` occurs in `L` and
appends `s` otherwise, so the old list is a prefix of the new one, and it never
changes the cursor (nor any other member); `AddSteps(xs)` is `AddStep` applied
to the elements of `xs` from left to right, and on an empty list it yields the
first occurrences of the values of `xs`, in their original order. -/
theorem AddStep_first_seen_order (p : Processing Freq) (s : Nat) (xs : List Nat) :
    (p.AddStep s).m_ProcessSteps
        = (if s ∈ p.m_ProcessSteps then p.m_ProcessSteps else p.m_ProcessSteps ++ [s])
    ∧ (∃ r, (p.AddStep s).m_ProcessSteps = p.m_ProcessSteps ++ r)
    ∧ (p.AddStep s).m_PS_pos = p.m_PS_pos
    ∧ p.AddSteps xs = xs.foldl Processing.AddStep p
    ∧ (∃ r, (p.AddSteps xs).m_ProcessSteps = p.m_ProcessSteps ++ r)
    ∧ (p.AddSteps xs).m_PS_pos = p.m_PS_pos
    ∧ (({ p with m_ProcessSteps := [] } : Processing Freq).AddSteps xs).m_ProcessSteps
        = firstOccurrences xs := by
  have hpos : ∀ (ys : List Nat) (q : Processing Freq),
      (ys.foldl Processing.AddStep q).m_PS_pos = q.m_PS_pos := by
    intro ys
    induction ys with
    | nil => intro q; rfl
    | cons y rest ih =>
      intro q
      rw [List.foldl_cons, ih, (AddStep_frame q y).1]
  refine ⟨AddStep_steps p s, ?_, (AddStep_frame p s).1, AddSteps_eq_foldl p xs, ?_, ?_, ?_⟩
  · rw [AddStep_steps]
    by_cases h : s ∈ p.m_ProcessSteps
    · exact ⟨[], by rw [if_pos h, List.append_nil]⟩
    · exact ⟨[s], by rw [if_neg h]⟩
  · rw [AddSteps_eq_foldl, foldl_AddStep_steps]
    exact ⟨_, rfl⟩
  · rw [AddSteps_eq_foldl, hpos]
  · rw [AddSteps_eq_foldl, foldl_AddStep_steps]
    simp

/-! ## Frequency sampling interval -/

theorem AddFrequency_rejected (nyquist : Freq → Nat) (opNyquist : Nat) (p : Processing Freq)
    (f : Freq) (h : nyquist f = 0) : p.AddFrequency nyquist opNyquist f = p := by
  unfold Processing.AddFrequency
  simp only [h, if_true]

theorem AddFrequency_fd (nyquist : Freq → Nat) (opNyquist : Nat) (p : Processing Freq)
    (f : Freq) (h : nyquist f ≠ 0) :
    (p.AddFrequency nyquist opNyquist f).m_FD_Interval
      = min (if p.m_FD_Interval = 0 then opNyquist else p.m_FD_Interval) (nyquist f) := by
  unfold Processing.AddFrequency
  simp only [h, if_false]
  split_ifs <;> omega

theorem AddFrequency_samples (nyquist : Freq → Nat) (opNyquist : Nat) (p : Processing Freq)
    (f : Freq) (h : nyquist f ≠ 0) :
    (p.AddFrequency nyquist opNyquist f).m_FD_Samples = p.m_FD_Samples ++ [f] := by
  unfold Processing.AddFrequency
  simp only [h, if_false]

theorem AddFrequency_frame (nyquist : Freq → Nat) (opNyquist : Nat) (p : Processing Freq)
    (f : Freq) :
    (p.AddFrequency nyquist opNyquist f).m_PS_pos = p.m_PS_pos
    ∧ (p.AddFrequency nyquist opNyquist f).m_ProcessSteps = p.m_ProcessSteps
    ∧ (p.AddFrequency nyquist opNyquist f).ProcessInterval = p.ProcessInterval
    ∧ (p.AddFrequency nyquist opNyquist f).Enabled = p.Enabled := by
  unfold Processing.AddFrequency
  by_cases h : nyquist f = 0
  · simp only [h, if_true, and_self]
  · simp only [h, if_false, and_self]

/-- One call never raises a nonzero interval and never sets it back to 0. -/
theorem AddFrequency_tighten (nyquist : Freq → Nat) (opNyquist : Nat) (p : Processing Freq)
    (f : Freq) (h : p.m_FD_Interval ≠ 0) :
    (p.AddFrequency nyquist opNyquist f).m_FD_Interval ≠ 0
    ∧ (p.AddFrequency nyquist opNyquist f).m_FD_Interval ≤ p.m_FD_Interval := by
  by_cases hn : nyquist f = 0
  · rw [AddFrequency_rejected nyquist opNyquist p f hn]
    exact ⟨h, le_refl _⟩
  · rw [AddFrequency_fd nyquist opNyquist p f hn, if_neg h]
    constructor <;> omega

theorem foldl_AddFrequency_tighten (nyquist : Freq → Nat) (opNyquist : Nat)
    (fs : List Freq) (p : Processing Freq) (h : p.m_FD_Interval ≠ 0) :
    (fs.foldl (Processing.AddFrequency nyquist opNyquist) p).m_FD_Interval ≠ 0
    ∧ (fs.foldl (Processing.AddFrequency nyquist opNyquist) p).m_FD_Interval
        ≤ p.m_FD_Interval := by
  induction fs generalizing p with
  | nil => exact ⟨h, le_refl _⟩
  | cons f rest ih =>
    rw [List.foldl_cons]
    obtain ⟨h1, h2⟩ := AddFrequency_tighten nyquist opNyquist p f h
    obtain ⟨h3, h4⟩ := ih (p.AddFrequency nyquist opNyquist f) h1
    exact ⟨h3, le_trans h4 h2⟩

/-- The interval after a run of calls, for a fixed excitation Nyquist count:
the old interval (the excitation count when there was none) tightened by every
accepted Nyquist count; it is untouched when no frequency was accepted. -/
theorem foldl_AddFrequency_fd (nyquist : Freq → Nat) (opNyquist : Nat)
    (fs : List Freq) (p : Processing Freq) :
    (fs.foldl (Processing.AddFrequency nyquist opNyquist) p).m_FD_Interval
      = if (fs.map nyquist).filter (fun n => n ≠ 0) = [] then p.m_FD_Interval
        else ((fs.map nyquist).filter (fun n => n ≠ 0)).foldl min
          (if p.m_FD_Interval = 0 then opNyquist else p.m_FD_Interval) := by
  induction fs generalizing p with
  | nil => simp
  | cons f rest ih =>
    rw [List.foldl_cons, ih]
    by_cases hn : nyquist f = 0
    · rw [AddFrequency_rejected nyquist opNyquist p f hn]
      simp [hn]
    · rw [AddFrequency_fd nyquist opNyquist p f hn]
      simp only [List.map_cons, ne_eq, hn, not_false_eq_true, decide_True, List.filter_cons_of_pos,
        List.foldl_cons]
      by_cases hrest : (rest.map nyquist).filter (fun n => n ≠ 0) = []
      · simp only [ne_eq, decide_not] at hrest
        simp [hrest]
      · simp only [ne_eq, decide_not] at hrest
        simp only [decide_not, hrest, if_false, reduceCtorEq]
        by_cases hz : min (if p.m_FD_Interval = 0 then opNyquist else p.m_FD_Interval)
            (nyquist f) = 0
        · have hop : (if p.m_FD_Interval = 0 then opNyquist else p.m_FD_Interval) = 0 := by
            omega
          have hop0 : opNyquist = 0 := by
            by_cases hp : p.m_FD_Interval = 0
            · rw [if_pos hp] at hop
              exact hop
            · rw [if_neg hp] at hop
              exact (hp hop).elim
          rw [if_pos hz, hop, hop0, Nat.zero_min]
        · rw [if_neg hz]

theorem foldl_min_le (l : List Nat) (s : Nat) :
    l.foldl min s ≤ s ∧ ∀ x ∈ l, l.foldl min s ≤ x := by
  induction l generalizing s with
  | nil => exact ⟨le_refl _, fun x hx => absurd hx (List.not_mem_nil x)⟩
  | cons a rest ih =>
    rw [List.foldl_cons]
    obtain ⟨h1, h2⟩ := ih (min s a)
    refine ⟨le_trans h1 (Nat.min_le_left _ _), ?_⟩
    intro x hx
    rcases List.mem_cons.mp hx with rfl | hx
    · exact le_trans h1 (Nat.min_le_right _ _)
    · exact h2 x hx

theorem foldl_min_mem (l : List Nat) (s : Nat) : l.foldl min s ∈ s :: l := by
  induction l generalizing s with
  | nil => exact List.mem_cons_self _ _
  | cons a rest ih =>
    rw [List.foldl_cons]
    rcases List.mem_cons.mp (ih (min s a)) with h | h
    · rw [h]
      rcases Nat.le_total s a with hsa | has
      · rw [Nat.min_eq_left hsa]
        exact List.mem_cons_self _ _
      · rw [Nat.min_eq_right has]
        exact List.mem_cons_of_mem _ (List.mem_cons_self _ _)
    · exact List.mem_cons_of_mem _ (List.mem_cons_of_mem _ h)

theorem mem_accepted (nyquist : Freq → Nat) (fs : List Freq) (f : Freq) (hf : f ∈ fs)
    (hn : nyquist f ≠ 0) : nyquist f ∈ (fs.map nyquist).filter (fun n => n ≠ 0) := by
  rw [List.mem_filter]
  exact ⟨List.mem_map_of_mem _ hf, by simpa using hn⟩

theorem AddFrequencyVec_eq_foldl (nyquist : Freq → Nat) (opNyquist : Nat)
    (fs : List Freq) (p : Processing Freq) :
    p.AddFrequencyVec nyquist opNyquist fs
      = fs.foldl (Processing.AddFrequency nyquist opNyquist) p := by
  induction fs generalizing p with
  | nil => rfl
  | cons f rest ih =>
    simp only [Processing.AddFrequencyVec, List.foldl_cons]
    exact ih _

theorem foldl_AddFrequency_samples (nyquist : Freq → Nat) (opNyquist : Nat)
    (fs : List Freq) (p : Processing Freq) :
    (fs.foldl (Processing.AddFrequency nyquist opNyquist) p).m_FD_Samples
      = p.m_FD_Samples ++ fs.filter (fun f => nyquist f ≠ 0) := by
  induction fs generalizing p with
  | nil => simp
  | cons f rest ih =>
    rw [List.foldl_cons, ih]
    by_cases hn : nyquist f = 0
    · rw [AddFrequency_rejected nyquist opNyquist p f hn,
        List.filter_cons_of_neg (by simpa using hn)]
    · rw [AddFrequency_samples nyquist opNyquist p f hn,
        List.filter_cons_of_pos (by simpa using hn), List.append_assoc, List.singleton_append]

/-- C11: for any sequence of `AddFrequency` calls on a new unit (Nyquist counts
and excitation Nyquist count given), split at any point into the calls made so
far and the later calls: once the interval is nonzero the later calls neither
raise it nor set it back to 0; and after the whole sequence the interval is at
most the Nyquist count of every accepted frequency. -/
theorem AddFrequency_tightening (nyquist : Freq → Nat) (opNyquist : Nat)
    (pre post : List Freq) :
    ((pre.foldl (Processing.AddFrequency nyquist opNyquist) Processing.new).m_FD_Interval ≠ 0 →
      ((pre ++ post).foldl (Processing.AddFrequency nyquist opNyquist)
          Processing.new).m_FD_Interval ≠ 0
      ∧ ((pre ++ post).foldl (Processing.AddFrequency nyquist opNyquist)
          Processing.new).m_FD_Interval
        ≤ (pre.foldl (Processing.AddFrequency nyquist opNyquist) Processing.new).m_FD_Interval)
    ∧ (∀ f ∈ pre ++ post, nyquist f ≠ 0 →
        ((pre ++ post).foldl (Processing.AddFrequency nyquist opNyquist)
          Processing.new).m_FD_Interval ≤ nyquist f) := by
  constructor
  · intro h
    rw [List.foldl_append]
    exact foldl_AddFrequency_tighten nyquist opNyquist post _ h
  · intro f hf hn
    have hacc := mem_accepted nyquist (pre ++ post) f hf hn
    rw [foldl_AddFrequency_fd, if_neg (List.ne_nil_of_mem hacc)]
    exact (foldl_min_le _ _).2 _ hacc

/-- Witness of C11: excitation count 50, frequencies 4 and 10 (Nyquist counts
25 and 10) followed by 2 and 200 (counts 50 and 0): the interval is 10 after
the first two calls and stays 10. -/
theorem AddFrequency_tightening_witness :
    (([4, 10].foldl (Processing.AddFrequency sampleNyquist 50)
        Processing.new).m_FD_Interval = 10)
    ∧ ((([4, 10] ++ [2, 200]).foldl (Processing.AddFrequency sampleNyquist 50)
        Processing.new).m_FD_Interval ≠ 0
      ∧ (([4, 10] ++ [2, 200]).foldl (Processing.AddFrequency sampleNyquist 50)
        Processing.new).m_FD_Interval
        ≤ ([4, 10].foldl (Processing.AddFrequency sampleNyquist 50)
            Processing.new).m_FD_Interval) :=
  ⟨by decide, (AddFrequency_tightening sampleNyquist 50 [4, 10] [2, 200]).1 (by decide)⟩

/-- C12, counterexample: excitation Nyquist count 5 and one accepted frequency
with Nyquist count 10: the interval is seeded with 5 and stays 5, which is not
the smallest accepted Nyquist count (10). -/
theorem AddFrequency_seed_dominates :
    sampleNyquist 10 = 10
    ∧ ([10].foldl (Processing.AddFrequency sampleNyquist 5) Processing.new).m_FD_Interval = 5
    ∧ ([10].foldl (Processing.AddFrequency sampleNyquist 5) Processing.new).m_FD_Interval
        ∉ ([10].map sampleNyquist).filter (fun n => n ≠ 0) := by
  decide

/-- C12, amended: after any sequence of `AddFrequency` calls on a new unit with
at least one accepted frequency, the interval is the smallest member of the
excitation Nyquist count together with the Nyquist counts of the accepted
frequencies, for every excitation Nyquist count; it is the smallest accepted
Nyquist count when the excitation count is not below that. -/
theorem AddFrequency_net_effect (nyquist : Freq → Nat) (opNyquist : Nat) (fs : List Freq)
    (hacc : (fs.map nyquist).filter (fun n => n ≠ 0) ≠ []) :
    (fs.foldl (Processing.AddFrequency nyquist opNyquist) Processing.new).m_FD_Interval
        ∈ opNyquist :: (fs.map nyquist).filter (fun n => n ≠ 0)
    ∧ (∀ x ∈ opNyquist :: (fs.map nyquist).filter (fun n => n ≠ 0),
        (fs.foldl (Processing.AddFrequency nyquist opNyquist) Processing.new).m_FD_Interval ≤ x)
    ∧ ((∃ x ∈ (fs.map nyquist).filter (fun n => n ≠ 0), x ≤ opNyquist) →
        (fs.foldl (Processing.AddFrequency nyquist opNyquist) Processing.new).m_FD_Interval
          ∈ (fs.map nyquist).filter (fun n => n ≠ 0)) := by
  rw [foldl_AddFrequency_fd, if_neg hacc]
  have hseed : (if (Processing.new : Processing Freq).m_FD_Interval = 0 then opNyquist
      else (Processing.new : Processing Freq).m_FD_Interval) = opNyquist := if_pos rfl
  rw [hseed]
  have hmem := foldl_min_mem ((fs.map nyquist).filter (fun n => n ≠ 0)) opNyquist
  obtain ⟨hle1, hle2⟩ := foldl_min_le ((fs.map nyquist).filter (fun n => n ≠ 0)) opNyquist
  refine ⟨hmem, ?_, ?_⟩
  · intro x hx
    rcases List.mem_cons.mp hx with rfl | hx
    · exact hle1
    · exact hle2 x hx
  · rintro ⟨x, hx, hxo⟩
    rcases List.mem_cons.mp hmem with h | h
    · have h1 := hle2 x hx
      have hxe : x = opNyquist := by omega
      rw [h, ← hxe]
      exact hx
    · exact h

/-- Witness of C12 (amended): excitation count 50, frequencies 4, 200 and 10
(Nyquist counts 25, 0 and 10) give the interval 10. -/
theorem AddFrequency_net_effect_witness :
    ([4, 200, 10].foldl (Processing.AddFrequency sampleNyquist 50)
        Processing.new).m_FD_Interval = 10
    ∧ ([4, 200, 10].foldl (Processing.AddFrequency sampleNyquist 50)
        Processing.new).m_FD_Interval
        ∈ 50 :: ([4, 200, 10].map sampleNyquist).filter (fun n => n ≠ 0) :=
  ⟨by decide, (AddFrequency_net_effect sampleNyquist 50 [4, 200, 10] (by decide)).1⟩

/-- C13: a call with Nyquist count 0 returns the unit unchanged; a call with a
nonzero Nyquist count (below the excitation count or not) appends the frequency
to the samples; the vector overload is the sequence of single calls; hence
after any sequence of calls the samples are the old samples followed by the
requested frequencies with nonzero Nyquist count, in call order. -/
theorem AddFrequency_acceptance (nyquist : Freq → Nat) (opNyquist : Nat)
    (p : Processing Freq) (f : Freq) (fs : List Freq) :
    (nyquist f = 0 → p.AddFrequency nyquist opNyquist f = p)
    ∧ (nyquist f ≠ 0 →
        (p.AddFrequency nyquist opNyquist f).m_FD_Samples = p.m_FD_Samples ++ [f])
    ∧ p.AddFrequencyVec nyquist opNyquist fs
        = fs.foldl (Processing.AddFrequency nyquist opNyquist) p
    ∧ (fs.foldl (Processing.AddFrequency nyquist opNyquist) p).m_FD_Samples
        = p.m_FD_Samples ++ fs.filter (fun g => nyquist g ≠ 0)
    ∧ ((Processing.new : Processing Freq).AddFrequencyVec nyquist opNyquist fs).m_FD_Samples
        = fs.filter (fun g => nyquist g ≠ 0) := by
  refine ⟨AddFrequency_rejected nyquist opNyquist p f, AddFrequency_samples nyquist opNyquist p f,
    AddFrequencyVec_eq_foldl nyquist opNyquist fs p,
    foldl_AddFrequency_samples nyquist opNyquist fs p, ?_⟩
  rw [AddFrequencyVec_eq_foldl, foldl_AddFrequency_samples]
  rfl

/-- Witness of C13: excitation count 50; frequency 200 (Nyquist count 0) is
dropped, frequency 10 (count 10, below the excitation count) is kept. -/
theorem AddFrequency_acceptance_witness :
    (Processing.new : Processing Nat).AddFrequency sampleNyquist 50 200 = Processing.new
    ∧ ((Processing.new : Processing Nat).AddFrequency sampleNyquist 50 10).m_FD_Samples = [10]
    ∧ ((Processing.new : Processing Nat).AddFrequencyVec sampleNyquist 50
        [4, 200, 10]).m_FD_Samples = [4, 10] :=
  ⟨(AddFrequency_acceptance sampleNyquist 50 Processing.new 200 []).1 (by decide),
    (AddFrequency_acceptance sampleNyquist 50 Processing.new 10 []).2.1 (by decide),
    by decide⟩

/-! ## Frequency-domain dump -/

/-- C14, counterexample: one monitored frequency and an empty value sequence
(`N = 1`, `N - 1 = 0` values): the call returns at the first guard, no file is
opened and no error is reported. -/
theorem Dump_FD_Data_empty_is_silent :
    oneFrequencyUnit.m_FD_Samples.length = 1
    ∧ ([] : List Nat).length ≠ oneFrequencyUnit.m_FD_Samples.length
    ∧ (oneFrequencyUnit.Dump_FD_Data ([] : List Nat)).fileProduced = false
    ∧ (oneFrequencyUnit.Dump_FD_Data ([] : List Nat)).errorReported = false := by
  decide

/-- C14, amended: for every list of monitored frequencies and every value
sequence whose length differs from their number, `Dump_FD_Data` produces no
file, and it reports the error exactly when the value sequence is not empty;
in particular it does so for `N` frequencies and `N - 1` values when `N >= 2`. -/
theorem Dump_FD_Data_length_check {Val : Type} (p : Processing Freq) (value : List Val)
    (hlen : value.length ≠ p.m_FD_Samples.length) :
    (p.Dump_FD_Data value).fileProduced = false
    ∧ ((p.Dump_FD_Data value).errorReported = true ↔ value ≠ [])
    ∧ (2 ≤ p.m_FD_Samples.length → value.length = p.m_FD_Samples.length - 1 →
        (p.Dump_FD_Data value).errorReported = true) := by
  unfold Processing.Dump_FD_Data
  by_cases h0 : value.length = 0
  · have hnil : value = [] := List.length_eq_zero.mp h0
    rw [if_pos h0]
    refine ⟨rfl, ⟨fun h => Bool.noConfusion h, fun h => (h hnil).elim⟩, ?_⟩
    intro h2 hv
    omega
  · have hne : value ≠ [] := fun h => h0 (by rw [h]; rfl)
    rw [if_neg h0, if_pos hlen]
    exact ⟨rfl, ⟨fun _ => hne, fun _ => rfl⟩, fun _ _ => rfl⟩

/-- Witness of C14 (amended): one monitored frequency and two values: no file,
error reported. -/
theorem Dump_FD_Data_length_check_witness :
    [7, 8].length ≠ oneFrequencyUnit.m_FD_Samples.length
    ∧ (oneFrequencyUnit.Dump_FD_Data [7, 8]).fileProduced = false
    ∧ (oneFrequencyUnit.Dump_FD_Data [7, 8]).errorReported = true :=
  ⟨by decide, (Dump_FD_Data_length_check oneFrequencyUnit [7, 8] (by decide)).1,
    ((Dump_FD_Data_length_check oneFrequencyUnit [7, 8] (by decide)).2.1).mpr (by decide)⟩

/-! ## Periodic trigger -/

theorem toU32_toInt (u : Nat) : toU32 (toInt u) = u % 4294967296 := by
  unfold toU32 toInt
  split_ifs <;> omega

/-- C15, counterexample: an enabled unit with periodic interval `2^32 - 1`, no
explicit step and no FD interval, at step 0 (a multiple of the interval):
`CheckTimestep` returns true, but `GetNextInterval` is `-1`, neither in
`1..P` nor equal to `P`. -/
theorem periodic_interval_wraps :
    hugeIntervalUnit.Enabled = true ∧ hugeIntervalUnit.m_ProcessSteps = []
    ∧ hugeIntervalUnit.m_FD_Interval = 0 ∧ hugeIntervalUnit.ProcessInterval = 4294967295
    ∧ 0 % hugeIntervalUnit.ProcessInterval = 0
    ∧ (hugeIntervalUnit.CheckTimestep 0).1 = true
    ∧ hugeIntervalUnit.GetNextInterval 0 = -1
    ∧ ¬ (1 ≤ hugeIntervalUnit.GetNextInterval 0) := by
  decide

/-- C15, amended: for every enabled unit with periodic interval `P`,
`0 < P < 2^31`, no pending explicit step and no FD interval, and every current
step `t` (an `unsigned int`), `GetNextInterval` lies in `1..P`; when `t` is a
multiple of `P`, `CheckTimestep` returns true and `GetNextInterval` is `P`. -/
theorem periodic_next_interval (p : Processing Freq) (t : Nat)
    (hen : p.Enabled = true) (hP0 : p.ProcessInterval ≠ 0)
    (hP : p.ProcessInterval < 2147483648)
    (hnone : ¬ p.m_PS_pos < p.m_ProcessSteps.length) (hF : p.m_FD_Interval = 0)
    (ht : t < 4294967296) :
    1 ≤ p.GetNextInterval t ∧ p.GetNextInterval t ≤ (p.ProcessInterval : Int)
    ∧ (t % p.ProcessInterval = 0 →
        (p.CheckTimestep t).1 = true ∧ p.GetNextInterval t = (p.ProcessInterval : Int)) := by
  have hr : t % p.ProcessInterval < p.ProcessInterval := Nat.mod_lt _ (Nat.pos_of_ne_zero hP0)
  have hval : p.GetNextInterval t
      = (p.ProcessInterval : Int) - ((t % p.ProcessInterval : Nat) : Int) := by
    unfold Processing.GetNextInterval
    have hnone2 : ¬ p.m_ProcessSteps.length > p.m_PS_pos := hnone
    have hcand : toInt (subU32 (toU32 (toInt p.ProcessInterval))
        (toU32 (toInt t) % p.ProcessInterval))
        = (p.ProcessInterval : Int) - ((t % p.ProcessInterval : Nat) : Int) := by
      rw [toU32_toInt, toU32_toInt, Nat.mod_eq_of_lt (by omega : p.ProcessInterval < 4294967296),
        Nat.mod_eq_of_lt ht, subU32_of_le (by omega) (by omega), toInt_of_lt (by omega)]
      omega
    have hmax : INT_MAX = 2147483647 := rfl
    simp only [hen, Bool.true_eq_false, if_false, hnone2, dite_false, hP0, ne_eq,
      not_false_eq_true, if_true, hF, not_true_eq_false, hcand, hmax]
    split_ifs <;> omega
  refine ⟨by omega, by omega, ?_⟩
  intro hm
  refine ⟨(CheckTimestep_fst p t).mpr (Or.inr (Or.inl ⟨hP0, hm⟩)), ?_⟩
  rw [hval, hm]
  omega

/-- Witness of C15 (amended): `P = 10`, `t = 20` gives `CheckTimestep` true and
`GetNextInterval = 10`. -/
theorem periodic_next_interval_witness :
    (periodicUnit.CheckTimestep 20).1 = true ∧ periodicUnit.GetNextInterval 20 = 10 :=
  ⟨((periodic_next_interval periodicUnit 20 (by decide) (by decide) (by decide) (by decide)
      (by decide) (by decide)).2.2 (by decide)).1,
    by decide⟩

/-! ## Reset -/

/-- C16: `Processing::Reset` sets the cursor to 0 and changes no other member;
`ProcessingArray::Reset` replaces every unit by its reset, at the same position:
the collection keeps its length, members and order. -/
theorem Reset_only_cursor (p : Processing Freq) (arr : List (Processing Freq)) :
    p.Reset.m_PS_pos = 0
    ∧ p.Reset.m_ProcessSteps = p.m_ProcessSteps
    ∧ p.Reset.ProcessInterval = p.ProcessInterval
    ∧ p.Reset.m_FD_Interval = p.m_FD_Interval
    ∧ p.Reset.m_FD_Samples = p.m_FD_Samples
    ∧ p.Reset.Enabled = p.Enabled
    ∧ ProcessingArray.Reset Processing.Reset arr = arr.map Processing.Reset
    ∧ (ProcessingArray.Reset Processing.Reset arr).length = arr.length
    ∧ (∀ (i : Nat) (h : i < arr.length),
        (ProcessingArray.Reset Processing.Reset arr)[i]?
          = some { arr.get ⟨i, h⟩ with m_PS_pos := 0 }) := by
  have hmap : ProcessingArray.Reset Processing.Reset arr = arr.map Processing.Reset := by
    induction arr with
    | nil => rfl
    | cons u rest ih =>
      simp only [ProcessingArray.Reset, List.map_cons, ih]
  refine ⟨rfl, rfl, rfl, rfl, rfl, rfl, hmap, ?_, ?_⟩
  · rw [hmap, List.length_map]
  · intro i h
    rw [hmap, List.getElem?_map, List.getElem?_eq_getElem h]
    rfl

/-! ## Skip-driven scheduling -/

/-- A call that does not fire leaves the unit as it was. -/
theorem CheckTimestep_no_fire_state (p : Processing Freq) (s : Nat)
    (h : (p.CheckTimestep s).1 = false) : (p.CheckTimestep s).2 = p := by
  unfold Processing.CheckTimestep at h ⊢
  by_cases hc : p.m_ProcessSteps.length > p.m_PS_pos
  · by_cases he : p.m_ProcessSteps.get ⟨p.m_PS_pos, hc⟩ = s
    · rw [dif_pos hc, if_pos he] at h
      exact Bool.noConfusion h
    · rw [dif_pos hc, if_neg he]
  · rw [dif_neg hc]

theorem CheckTimestep_frame (p : Processing Freq) (t : Nat) :
    (p.CheckTimestep t).2.m_ProcessSteps = p.m_ProcessSteps
    ∧ (p.CheckTimestep t).2.ProcessInterval = p.ProcessInterval
    ∧ (p.CheckTimestep t).2.m_FD_Interval = p.m_FD_Interval
    ∧ (p.CheckTimestep t).2.m_FD_Samples = p.m_FD_Samples
    ∧ (p.CheckTimestep t).2.Enabled = p.Enabled := by
  unfold Processing.CheckTimestep
  by_cases h : p.m_ProcessSteps.length > p.m_PS_pos
  · by_cases he : p.m_ProcessSteps.get ⟨p.m_PS_pos, h⟩ = t
    · rw [dif_pos h, if_pos he]
      exact ⟨rfl, rfl, rfl, rfl, rfl⟩
    · rw [dif_pos h, if_neg he]
      exact ⟨rfl, rfl, rfl, rfl, rfl⟩
  · rw [dif_neg h]
    exact ⟨rfl, rfl, rfl, rfl, rfl⟩

theorem CheckTimestep_pos (p : Processing Freq) (t : Nat) :
    (p.CheckTimestep t).2.m_PS_pos
      = if ∃ h : p.m_PS_pos < p.m_ProcessSteps.length, p.m_ProcessSteps.get ⟨p.m_PS_pos, h⟩ = t
        then p.m_PS_pos + 1 else p.m_PS_pos := by
  unfold Processing.CheckTimestep
  by_cases h : p.m_ProcessSteps.length > p.m_PS_pos
  · by_cases he : p.m_ProcessSteps.get ⟨p.m_PS_pos, h⟩ = t
    · rw [dif_pos h, if_pos he, if_pos ⟨h, he⟩]
    · rw [dif_pos h, if_neg he, if_neg (fun ⟨_, h2⟩ => he h2)]
  · rw [dif_neg h, if_neg (fun ⟨h1, _⟩ => h h1)]

/-- No firing strictly inside the look-ahead window of an enabled unit. -/
theorem quiet_between (p : Processing Freq) (t s : Nat)
    (hen : p.Enabled = true)
    (hsteps : ∀ x ∈ p.m_ProcessSteps, x < 2147483648)
    (hP : p.ProcessInterval < 2147483648) (hF : p.m_FD_Interval < 2147483648)
    (ht : t < 2147483648) (hts : t < s) (hlt : (s : Int) < (t : Int) + p.GetNextInterval t) :
    (p.CheckTimestep s).1 = false := by
  obtain ⟨hE, hPle, hFle, _⟩ := GetNextInterval_bounds p t hen hsteps hP hF ht
  cases hb : (p.CheckTimestep s).1
  · rfl
  · exfalso
    rcases (CheckTimestep_fst p s).mp hb with ⟨h, he⟩ | ⟨h0, hm⟩ | ⟨h0, hm⟩
    · rw [explicitCand_pending p t h, he] at hE
      omega
    · have h1 := hPle h0
      have h2 := multiple_gap h0 hts hm
      have h3 : t % p.ProcessInterval < p.ProcessInterval :=
        Nat.mod_lt _ (Nat.pos_of_ne_zero h0)
      omega
    · have h1 := hFle h0
      have h2 := multiple_gap h0 hts hm
      have h3 : t % p.m_FD_Interval < p.m_FD_Interval :=
        Nat.mod_lt _ (Nat.pos_of_ne_zero h0)
      omega

/-- The look-ahead of an enabled unit is at least 1 when the explicit step
under the cursor, if any, lies after the current step. -/
theorem GetNextInterval_pos (p : Processing Freq) (t : Nat)
    (hen : p.Enabled = true)
    (hsteps : ∀ x ∈ p.m_ProcessSteps, x < 2147483648)
    (hP : p.ProcessInterval < 2147483648) (hF : p.m_FD_Interval < 2147483648)
    (ht : t < 2147483648)
    (hafter : ∀ h : p.m_PS_pos < p.m_ProcessSteps.length,
      t < p.m_ProcessSteps.get ⟨p.m_PS_pos, h⟩) :
    1 ≤ p.GetNextInterval t := by
  obtain ⟨_, _, _, hcases⟩ := GetNextInterval_bounds p t hen hsteps hP hF ht
  have hmax : INT_MAX = 2147483647 := rfl
  rcases hcases with ⟨hc, hv⟩ | ⟨h0, hv⟩ | ⟨h0, hv⟩ | ⟨_, _, _, hv⟩
  · rw [explicitCand_pending p t hc] at hv
    have := hafter hc
    omega
  · have : t % p.ProcessInterval < p.ProcessInterval := Nat.mod_lt _ (Nat.pos_of_ne_zero h0)
    omega
  · have : t % p.m_FD_Interval < p.m_FD_Interval := Nat.mod_lt _ (Nat.pos_of_ne_zero h0)
    omega
  · omega

/-- After the check at step `t`, the step under the cursor lies after `t`, when
the steps increase strictly and the step under the cursor was not before `t`. -/
theorem cursor_after_check (p : Processing Freq) (t : Nat)
    (hsorted : p.m_ProcessSteps.Pairwise (fun a b => a < b))
    (hcur : ∀ h : p.m_PS_pos < p.m_ProcessSteps.length, t ≤ p.m_ProcessSteps.get ⟨p.m_PS_pos, h⟩)
    (h : (p.CheckTimestep t).2.m_PS_pos < (p.CheckTimestep t).2.m_ProcessSteps.length) :
    t < (p.CheckTimestep t).2.m_ProcessSteps.get ⟨(p.CheckTimestep t).2.m_PS_pos, h⟩ := by
  have hpos := CheckTimestep_pos p t
  have hst := (CheckTimestep_frame p t).1
  have key : ∀ (q : Processing Freq) (hq1 : q.m_ProcessSteps = p.m_ProcessSteps)
      (hq2 : q.m_PS_pos = if ∃ h : p.m_PS_pos < p.m_ProcessSteps.length,
          p.m_ProcessSteps.get ⟨p.m_PS_pos, h⟩ = t then p.m_PS_pos + 1 else p.m_PS_pos)
      (hq : q.m_PS_pos < q.m_ProcessSteps.length),
      t < q.m_ProcessSteps.get ⟨q.m_PS_pos, hq⟩ := by
    intro q hq1 hq2 hq
    obtain ⟨en, pos, steps, pi, fi, fs⟩ := q
    simp only at hq1 hq2 hq ⊢
    subst hq1
    by_cases hex : ∃ h : p.m_PS_pos < p.m_ProcessSteps.length,
        p.m_ProcessSteps.get ⟨p.m_PS_pos, h⟩ = t
    · rw [if_pos hex] at hq2
      subst hq2
      obtain ⟨h1, h2⟩ := hex
      have := (List.pairwise_iff_get.mp hsorted) ⟨p.m_PS_pos, h1⟩ ⟨p.m_PS_pos + 1, hq⟩
        (by simp [Fin.lt_def])
      rw [h2] at this
      exact this
    · rw [if_neg hex] at hq2
      subst hq2
      have h1 := hcur hq
      have h2 : p.m_ProcessSteps.get ⟨p.m_PS_pos, hq⟩ ≠ t := fun h3 => hex ⟨hq, h3⟩
      omega
  exact key _ hst hpos h

theorem firedPoll_cons (t : Nat) (b : Bool) (l : List (Nat × Bool)) :
    firedPoll ((t, b) :: l) = if b = true then t :: firedPoll l else firedPoll l := by
  unfold firedPoll
  cases b <;> simp

theorem firedSkip_cons (t : Nat) (b : Bool) (d : Int) (l : List (Nat × Bool × Int)) :
    firedSkip ((t, b, d) :: l) = if b = true then t :: firedSkip l else firedSkip l := by
  unfold firedSkip
  cases b <;> simp

theorem firedPoll_append (l1 l2 : List (Nat × Bool)) :
    firedPoll (l1 ++ l2) = firedPoll l1 ++ firedPoll l2 := by
  unfold firedPoll
  rw [List.filter_append, List.map_append]

theorem pollRun_add (a b : Nat) (p : Processing Freq) (t : Nat) :
    pollRun (a + b) p t = pollRun a p t ++ pollRun b (pollState a p t) (t + a) := by
  induction a generalizing p t with
  | zero => simp [pollRun, pollState]
  | succ a ih =>
    have h1 : a + 1 + b = (a + b) + 1 := by omega
    rw [h1]
    simp only [pollRun, pollState, List.cons_append]
    rw [ih]
    have h2 : t + 1 + a = t + (a + 1) := by omega
    rw [h2]

/-- Polling a stretch of steps at which the unit does not fire records no
firing and leaves the unit as it was. -/
theorem poll_quiet (n : Nat) (p : Processing Freq) (t : Nat)
    (hq : ∀ s, t ≤ s → s < t + n → (p.CheckTimestep s).1 = false) :
    firedPoll (pollRun n p t) = [] ∧ pollState n p t = p := by
  induction n generalizing t with
  | zero => exact ⟨rfl, rfl⟩
  | succ n ih =>
    have h0 := hq t (le_refl _) (by omega)
    have hs := CheckTimestep_no_fire_state p t h0
    simp only [pollRun, pollState]
    rw [firedPoll_cons, h0, hs]
    have := ih (t + 1) (fun s h1 h2 => hq s (by omega) (by omega))
    exact ⟨by simpa using this.1, this.2⟩

/-- The skip-driven run and the polling run from the same state and step, for
an enabled unit with strictly increasing explicit steps none of which under
the cursor lies before the current step, all values below `2^31`. -/
theorem skip_poll_aux (N : Nat) (hN : N < 2147483648) (fuel : Nat) :
    ∀ (p : Processing Freq) (t : Nat),
      p.Enabled = true →
      (∀ x ∈ p.m_ProcessSteps, x < 2147483648) →
      p.ProcessInterval < 2147483648 → p.m_FD_Interval < 2147483648 →
      p.m_ProcessSteps.Pairwise (fun a b => a < b) →
      (∀ h : p.m_PS_pos < p.m_ProcessSteps.length, t ≤ p.m_ProcessSteps.get ⟨p.m_PS_pos, h⟩) →
      N + 1 - t ≤ fuel →
      firedSkip (skipRun N fuel p t) = firedPoll (pollRun (N + 1 - t) p t)
      ∧ (∀ r ∈ skipRun N fuel p t, 1 ≤ r.2.2)
      ∧ (∀ fuel2, N + 1 - t ≤ fuel2 → skipRun N fuel2 p t = skipRun N fuel p t) := by
  induction fuel with
  | zero =>
    intro p t _ _ _ _ _ _ hfuel
    have htN : ¬ t ≤ N := by omega
    have h0 : N + 1 - t = 0 := by omega
    rw [h0]
    refine ⟨rfl, fun r hr => absurd hr (List.not_mem_nil r), ?_⟩
    intro fuel2 _
    cases fuel2 with
    | zero => rfl
    | succ f => simp only [skipRun, if_neg htN]
  | succ fuel ih =>
    intro p t hen hsteps hP hF hsorted hcur hfuel
    by_cases htN : t ≤ N
    · -- the state and the interval after the check at `t`
      obtain ⟨fst, fpi, ffd, _, fen⟩ := CheckTimestep_frame p t
      have hen2 : (p.CheckTimestep t).2.Enabled = true := by rw [fen]; exact hen
      have hsteps2 : ∀ x ∈ (p.CheckTimestep t).2.m_ProcessSteps, x < 2147483648 := by
        rw [fst]; exact hsteps
      have hP2 : (p.CheckTimestep t).2.ProcessInterval < 2147483648 := by rw [fpi]; exact hP
      have hF2 : (p.CheckTimestep t).2.m_FD_Interval < 2147483648 := by rw [ffd]; exact hF
      have hsorted2 : (p.CheckTimestep t).2.m_ProcessSteps.Pairwise (fun a b => a < b) := by
        rw [fst]; exact hsorted
      have hafter := cursor_after_check p t hsorted hcur
      have ht : t < 2147483648 := by omega
      have hd := GetNextInterval_pos (p.CheckTimestep t).2 t hen2 hsteps2 hP2 hF2 ht hafter
      have hE := (GetNextInterval_bounds (p.CheckTimestep t).2 t hen2 hsteps2 hP2 hF2 ht).1
      have hquiet : ∀ s, t < s → (s : Int) < (t : Int) + (p.CheckTimestep t).2.GetNextInterval t →
          ((p.CheckTimestep t).2.CheckTimestep s).1 = false :=
        fun s h1 h2 => quiet_between (p.CheckTimestep t).2 t s hen2 hsteps2 hP2 hF2 ht h1 h2
      generalize hp2 : (p.CheckTimestep t).2 = p2 at *
      generalize hdd : p2.GetNextInterval t = d at *
      generalize hfire : (p.CheckTimestep t).1 = fire at *
      have hcur2 : ∀ h : p2.m_PS_pos < p2.m_ProcessSteps.length,
          ((t : Int) + d).toNat ≤ p2.m_ProcessSteps.get ⟨p2.m_PS_pos, h⟩ := by
        intro h
        rw [explicitCand_pending p2 t h] at hE
        omega
      have hsplit : N + 1 - t = (N - t) + 1 := by omega
      have hskip : skipRun N (fuel + 1) p t
          = (t, fire, d) :: skipRun N fuel p2 ((t : Int) + d).toNat := by
        simp only [skipRun, if_pos htN, hp2, hdd, hfire]
      have hpoll : pollRun (N + 1 - t) p t = (t, fire) :: pollRun (N - t) p2 (t + 1) := by
        rw [hsplit]
        simp only [pollRun, hp2, hfire]
      obtain ⟨ih1, ih2, ih3⟩ := ih p2 ((t : Int) + d).toNat hen2 hsteps2 hP2 hF2 hsorted2 hcur2
        (by omega)
      have hrest : firedPoll (pollRun (N - t) p2 (t + 1))
          = firedPoll (pollRun (N + 1 - ((t : Int) + d).toNat) p2 ((t : Int) + d).toNat) := by
        by_cases hfar : N < ((t : Int) + d).toNat
        · have hz : N + 1 - ((t : Int) + d).toNat = 0 := by omega
          rw [hz]
          have := (poll_quiet (N - t) p2 (t + 1)
            (fun s h1 h2 => hquiet s (by omega) (by omega))).1
          rw [this]
          rfl
        · have hsum : N - t = (d.toNat - 1) + (N + 1 - ((t : Int) + d).toNat) := by omega
          have hq := poll_quiet (d.toNat - 1) p2 (t + 1)
            (fun s h1 h2 => hquiet s (by omega) (by omega))
          have hstep : t + 1 + (d.toNat - 1) = ((t : Int) + d).toNat := by omega
          rw [hsum, pollRun_add, firedPoll_append, hq.1, hq.2, hstep, List.nil_append]
      refine ⟨?_, ?_, ?_⟩
      · rw [hskip, hpoll, firedSkip_cons, firedPoll_cons, ih1, hrest]
      · intro r hr
        rw [hskip] at hr
        rcases List.mem_cons.mp hr with rfl | hr
        · exact hd
        · exact ih2 r hr
      · intro fuel2 hf2
        cases fuel2 with
        | zero => omega
        | succ f =>
          rw [hskip]
          simp only [skipRun, if_pos htN, hp2, hdd, hfire]
          rw [ih3 f (by omega)]
    · have h0 : N + 1 - t = 0 := by omega
      rw [h0]
      have hnil : skipRun N (fuel + 1) p t = [] := by simp only [skipRun, if_neg htN]
      rw [hnil]
      refine ⟨rfl, fun r hr => absurd hr (List.not_mem_nil r), ?_⟩
      intro fuel2 _
      cases fuel2 with
      | zero => rfl
      | succ f => simp only [skipRun, if_neg htN]

/-- C17, counterexample: a new enabled unit (cursor 0, no explicit step) with
periodic interval `2^32 - 1` and horizon 0: the skip-driven run fires at step 0
and the interval it takes after that check is `-1`, not `>= 1`. -/
theorem skip_run_negative_interval :
    hugeIntervalUnit.Enabled = true ∧ hugeIntervalUnit.m_PS_pos = 0
    ∧ hugeIntervalUnit.m_ProcessSteps.Pairwise (fun a b => a < b)
    ∧ skipRun 0 1 hugeIntervalUnit 0 = [(0, true, -1)]
    ∧ ¬ (∀ r ∈ skipRun 0 1 hugeIntervalUnit 0, 1 ≤ r.2.2) := by
  decide

/-- C17, amended: for every enabled unit whose explicit steps increase
strictly (with cursor 0, and indeed with any cursor), with the explicit steps
and both intervals below `2^31`, and every horizon `N` below `2^31`: the
skip-driven run from step 0 fires at the same steps, in the same order, as the
run that polls every step `0..N`; every interval it takes after a check is at
least 1; and it ends within `N + 1` iterations (more fuel does not change it). -/
theorem skip_run_fires_as_poll_run (p : Processing Freq) (N : Nat)
    (hen : p.Enabled = true)
    (hsorted : p.m_ProcessSteps.Pairwise (fun a b => a < b))
    (hsteps : ∀ x ∈ p.m_ProcessSteps, x < 2147483648)
    (hP : p.ProcessInterval < 2147483648) (hF : p.m_FD_Interval < 2147483648)
    (hN : N < 2147483648) :
    firedSkip (skipRun N (N + 1) p 0) = firedPoll (pollRun (N + 1) p 0)
    ∧ (∀ r ∈ skipRun N (N + 1) p 0, 1 ≤ r.2.2)
    ∧ (∀ fuel, N + 1 ≤ fuel → skipRun N fuel p 0 = skipRun N (N + 1) p 0) :=
  skip_poll_aux N hN (N + 1) p 0 hen hsteps hP hF hsorted (fun _ => Nat.zero_le _)
    (Nat.le_refl _)

/-- Witness of C17 (amended): explicit steps `[7, 12]`, periodic interval 10,
FD interval 4, horizon 12: both runs fire at steps 0, 4, 7, 8, 10 and 12. -/
theorem skip_run_fires_as_poll_run_witness :
    firedPoll (pollRun (12 + 1) sampleUnit 0) = [0, 4, 7, 8, 10, 12]
    ∧ firedSkip (skipRun 12 (12 + 1) sampleUnit 0) = firedPoll (pollRun (12 + 1) sampleUnit 0) :=
  ⟨by decide,
    (skip_run_fires_as_poll_run sampleUnit 12 (by decide) (by decide) (by decide) (by decide)
      (by decide) (by decide)).1⟩

/-! ## Safety of the aggregate window -/

/-- C18, counterexample: one enabled unit with explicit step 5 under the cursor
and periodic interval 10, current step 8, `maxInterval = 100`.  The unit
reports `5 - 8 = -3`, the aggregate ignores it and returns 100, but the unit
fires at step 10, inside the window `8 < 10 < 108`. -/
theorem aggregate_window_unsafe :
    maskedUnit.Enabled = true ∧ maskedUnit.GetNextInterval 8 = -3
    ∧ (ProcessingArray.Process (fun u => (u.GetNextInterval 8, u)) 100 [maskedUnit]).1 = 100
    ∧ (8 < 10 ∧ ((10 : Nat) : Int) < ((8 : Nat) : Int)
        + (ProcessingArray.Process (fun u => (u.GetNextInterval 8, u)) 100 [maskedUnit]).1)
    ∧ (maskedUnit.CheckTimestep 10).1 = true := by
  decide

/-- C18, amended: for every collection of enabled units whose explicit steps
and intervals are below `2^31`, every current step `t` below `2^31` such that
in each unit the explicit step under the cursor, if any, lies after `t`, and
every `maxInterval`: if `r` is the result of `ProcessingArray::Process` when
each unit reports its `GetNextInterval` at step `t`, no unit of the collection
has `CheckTimestep` return true at a step `s` with `t < s < t + r`. -/
theorem aggregate_window_safe (units : List (Processing Freq)) (maxInterval t : Nat)
    (hen : ∀ u ∈ units, u.Enabled = true)
    (hsteps : ∀ u ∈ units, ∀ x ∈ u.m_ProcessSteps, x < 2147483648)
    (hP : ∀ u ∈ units, u.ProcessInterval < 2147483648)
    (hF : ∀ u ∈ units, u.m_FD_Interval < 2147483648)
    (ht : t < 2147483648)
    (hafter : ∀ u ∈ units, ∀ h : u.m_PS_pos < u.m_ProcessSteps.length,
      t < u.m_ProcessSteps.get ⟨u.m_PS_pos, h⟩) :
    ∀ u ∈ units, ∀ s : Nat, t < s →
      (s : Int) < (t : Int)
        + (ProcessingArray.Process (fun v => (v.GetNextInterval t, v)) maxInterval units).1 →
      (u.CheckTimestep s).1 = false := by
  intro u hu s hts hlt
  have hpos := GetNextInterval_pos u t (hen u hu) (hsteps u hu) (hP u hu) (hF u hu) ht
    (hafter u hu)
  have hle := (loop_fst_min (fun v : Processing Freq => (v.GetNextInterval t, v)) units
    (toInt maxInterval)).2 (u.GetNextInterval t) (by
      refine List.mem_cons_of_mem _ (List.mem_filter.mpr ⟨?_, by simpa using hpos⟩)
      exact List.mem_map.mpr ⟨u, hu, rfl⟩)
  unfold ProcessingArray.Process at hlt
  exact quiet_between u t s (hen u hu) (hsteps u hu) (hP u hu) (hF u hu) ht hts (by omega)

/-- Witness of C18 (amended): the units `sampleUnit` (steps `[7, 12]`, periodic
10, FD 4) and `scenarioUnit` (steps `[5, 15]`) at step 1 with `maxInterval = 100`:
the result is 3 and neither unit fires at step 2 or 3. -/
theorem aggregate_window_safe_witness :
    (ProcessingArray.Process (fun v => (v.GetNextInterval 1, v)) 100
        [sampleUnit, scenarioUnit]).1 = 3
    ∧ (sampleUnit.CheckTimestep 3).1 = false ∧ (scenarioUnit.CheckTimestep 3).1 = false :=
  ⟨by decide,
    aggregate_window_safe [sampleUnit, scenarioUnit] 100 1 (by decide) (by decide) (by decide)
      (by decide) (by decide) (by decide) sampleUnit (List.mem_cons_self _ _) 3 (by decide)
      (by decide),
    aggregate_window_safe [sampleUnit, scenarioUnit] 100 1 (by decide) (by decide) (by decide)
      (by decide) (by decide) (by decide) scenarioUnit
      (List.mem_cons_of_mem _ (List.mem_cons_self _ _)) 3 (by decide) (by decide)⟩

/-! ## Totality of the trigger queries -/

theorem CheckTimestepE_eq (p : Processing Freq) (ts : Nat) :
    p.CheckTimestepE ts = some (p.CheckTimestep ts) := by
  unfold Processing.CheckTimestepE Processing.CheckTimestep Processing.CheckTimestep.intervals
    atE remE
  by_cases hc : p.m_ProcessSteps.length > p.m_PS_pos <;>
    by_cases hP : p.ProcessInterval = 0 <;>
    by_cases hF : p.m_FD_Interval = 0 <;>
    simp [hc, hP, hF, List.getElem?_eq_getElem] <;>
    split_ifs <;> simp_all

theorem GetNextIntervalE_eq (p : Processing Freq) (ts : Nat) :
    p.GetNextIntervalE ts = some (p.GetNextInterval ts) := by
  unfold Processing.GetNextIntervalE Processing.GetNextInterval atE remE
  by_cases hen : p.Enabled = false <;>
    by_cases hc : p.m_ProcessSteps.length > p.m_PS_pos <;>
    by_cases hP : p.ProcessInterval = 0 <;>
    by_cases hF : p.m_FD_Interval = 0 <;>
    simp [hen, hc, hP, hF, List.getElem?_eq_getElem] <;>
    split_ifs <;> simp_all

/-- Every reachable state keeps the cursor inside `0..size()`. -/
theorem Call_run_cursor (nyquist : Freq → Nat) (opNyquist : Nat) (p : Processing Freq)
    (c : Call Freq) (h : p.m_PS_pos ≤ p.m_ProcessSteps.length) :
    (Call.run nyquist opNyquist p c).m_PS_pos
      ≤ (Call.run nyquist opNyquist p c).m_ProcessSteps.length := by
  have hAddSteps : ∀ (xs : List Nat) (q : Processing Freq),
      q.m_PS_pos ≤ q.m_ProcessSteps.length →
      (xs.foldl Processing.AddStep q).m_PS_pos
        ≤ (xs.foldl Processing.AddStep q).m_ProcessSteps.length := by
    intro xs
    induction xs with
    | nil => intro q hq; exact hq
    | cons x rest ih =>
      intro q hq
      rw [List.foldl_cons]
      apply ih
      rw [(AddStep_frame q x).1, AddStep_steps]
      split_ifs
      · exact hq
      · rw [List.length_append]
        omega
  have hAddFreq : ∀ (fs : List Freq) (q : Processing Freq),
      q.m_PS_pos ≤ q.m_ProcessSteps.length →
      (fs.foldl (Processing.AddFrequency nyquist opNyquist) q).m_PS_pos
        ≤ (fs.foldl (Processing.AddFrequency nyquist opNyquist) q).m_ProcessSteps.length := by
    intro fs
    induction fs with
    | nil => intro q hq; exact hq
    | cons f rest ih =>
      intro q hq
      rw [List.foldl_cons]
      apply ih
      rw [(AddFrequency_frame nyquist opNyquist q f).1,
        (AddFrequency_frame nyquist opNyquist q f).2.1]
      exact hq
  cases c with
  | addStep step =>
    exact hAddSteps [step] p h
  | addSteps steps =>
    show (p.AddSteps steps).m_PS_pos ≤ (p.AddSteps steps).m_ProcessSteps.length
    rw [AddSteps_eq_foldl]
    exact hAddSteps steps p h
  | addFrequency freq =>
    exact hAddFreq [freq] p h
  | addFrequencyVec freqs =>
    show (p.AddFrequencyVec nyquist opNyquist freqs).m_PS_pos
      ≤ (p.AddFrequencyVec nyquist opNyquist freqs).m_ProcessSteps.length
    rw [AddFrequencyVec_eq_foldl]
    exact hAddFreq freqs p h
  | checkTimestep ts =>
    show (p.CheckTimestep ts).2.m_PS_pos ≤ (p.CheckTimestep ts).2.m_ProcessSteps.length
    rw [CheckTimestep_pos, (CheckTimestep_frame p ts).1]
    split_ifs with hex
    · obtain ⟨h1, _⟩ := hex
      omega
    · exact h
  | reset =>
    exact Nat.zero_le _

/-- C20: in every state reached from a new unit by any sequence of `AddStep`,
`AddSteps`, `AddFrequency` (either overload), `CheckTimestep` and `Reset`
calls, the cursor is at most the length of the explicit-step list; and in
every state whatever (so for every periodic and FD interval) and at every
current step, `CheckTimestep` and `GetNextInterval` return their result
without an out-of-range `at()` and without a remainder by zero. -/
theorem trigger_queries_total (nyquist : Freq → Nat) (opNyquist : Nat)
    (calls : List (Call Freq)) :
    (calls.foldl (Call.run nyquist opNyquist) Processing.new).m_PS_pos
        ≤ (calls.foldl (Call.run nyquist opNyquist) Processing.new).m_ProcessSteps.length
    ∧ (∀ (ts periodicInterval fdInterval : Nat),
        ({ calls.foldl (Call.run nyquist opNyquist) Processing.new with
            ProcessInterval := periodicInterval, m_FD_Interval := fdInterval }
          : Processing Freq).CheckTimestepE ts ≠ none
        ∧ ({ calls.foldl (Call.run nyquist opNyquist) Processing.new with
            ProcessInterval := periodicInterval, m_FD_Interval := fdInterval }
          : Processing Freq).GetNextIntervalE ts ≠ none)
    ∧ (∀ (q : Processing Freq) (ts : Nat),
        q.CheckTimestepE ts = some (q.CheckTimestep ts)
        ∧ q.GetNextIntervalE ts = some (q.GetNextInterval ts)) := by
  refine ⟨?_, ?_, fun q ts => ⟨CheckTimestepE_eq q ts, GetNextIntervalE_eq q ts⟩⟩
  · have hgen : ∀ (cs : List (Call Freq)) (q : Processing Freq),
        q.m_PS_pos ≤ q.m_ProcessSteps.length →
        (cs.foldl (Call.run nyquist opNyquist) q).m_PS_pos
          ≤ (cs.foldl (Call.run nyquist opNyquist) q).m_ProcessSteps.length := by
      intro cs
      induction cs with
      | nil => intro q hq; exact hq
      | cons c rest ih =>
        intro q hq
        rw [List.foldl_cons]
        exact ih _ (Call_run_cursor nyquist opNyquist q c hq)
    exact hgen calls Processing.new (Nat.zero_le _)
  · intro ts pI fI
    rw [CheckTimestepE_eq, GetNextIntervalE_eq]
    exact ⟨fun h => Option.noConfusion h, fun h => Option.noConfusion h⟩

/-! ## Explicit steps stored out of order -/

theorem pollRun_steps (n : Nat) (p : Processing Freq) (t : Nat) :
    (pollRun n p t).map (fun r => r.1) = List.range' t n := by
  induction n generalizing p t with
  | zero => rfl
  | succ n ih =>
    simp only [pollRun, List.map_cons, List.range'_succ]
    rw [ih]

theorem twoStepUnit_built (a b : Nat) (h : b ≠ a) :
    ((Processing.new : Processing Freq).AddStep a).AddStep b = twoStepUnit a b 0 := by
  have hidx : List.indexOf b [a] = 1 := by
    have : b ∉ [a] := by simpa using h
    exact List.indexOf_eq_length.mpr this
  simp [Processing.AddStep, Processing.new, twoStepUnit, hidx]

theorem twoStepUnit_check0 (a b t : Nat) :
    (twoStepUnit a b 0 : Processing Freq).CheckTimestep t
      = (decide (a = t), twoStepUnit a b (if a = t then 1 else 0)) := by
  unfold Processing.CheckTimestep Processing.CheckTimestep.intervals twoStepUnit
  by_cases h : a = t <;> simp [h]

theorem twoStepUnit_check1 (a b t : Nat) :
    (twoStepUnit a b 1 : Processing Freq).CheckTimestep t
      = (decide (b = t), twoStepUnit a b (if b = t then 2 else 1)) := by
  unfold Processing.CheckTimestep Processing.CheckTimestep.intervals twoStepUnit
  by_cases h : b = t <;> simp [h]

/-- Polling after step `a`: the cursor stays on the entry `b < a`, nothing fires. -/
theorem poll_after_first (a b : Nat) (hba : b < a) (n : Nat) :
    ∀ t, a < t →
      pollState n (twoStepUnit a b 1 : Processing Freq) t = twoStepUnit a b 1
      ∧ ∀ r ∈ pollRun n (twoStepUnit a b 1 : Processing Freq) t, r.2 = false ∧ a < r.1 := by
  induction n with
  | zero =>
    intro t _
    exact ⟨rfl, fun r hr => absurd hr (List.not_mem_nil r)⟩
  | succ n ih =>
    intro t hat
    have hbt : ¬ b = t := by omega
    simp only [pollRun, pollState, twoStepUnit_check1, hbt, if_false, decide_False]
    obtain ⟨h1, h2⟩ := ih (t + 1) (by omega)
    refine ⟨h1, ?_⟩
    intro r hr
    rcases List.mem_cons.mp hr with rfl | hr
    · exact ⟨rfl, hat⟩
    · exact h2 r hr

/-- Polling from a step up to `a`: the unit fires at `a` only, and the cursor
is on the entry `b` from then on. -/
theorem poll_from_start (a b : Nat) (hba : b < a) (n : Nat) :
    ∀ t, t ≤ a →
      pollState n (twoStepUnit a b 0 : Processing Freq) t
        = twoStepUnit a b (if a < t + n then 1 else 0)
      ∧ ∀ r ∈ pollRun n (twoStepUnit a b 0 : Processing Freq) t, (r.2 = true ↔ r.1 = a) := by
  induction n with
  | zero =>
    intro t hta
    refine ⟨?_, fun r hr => absurd hr (List.not_mem_nil r)⟩
    rw [if_neg (by omega)]
    rfl
  | succ n ih =>
    intro t hta
    by_cases hat : a = t
    · subst hat
      simp only [pollRun, pollState, twoStepUnit_check0, if_true, decide_True]
      obtain ⟨h1, h2⟩ := poll_after_first a b hba n (a + 1) (by omega)
      refine ⟨?_, ?_⟩
      · rw [h1, if_pos (by omega)]
      · intro r hr
        rcases List.mem_cons.mp hr with rfl | hr
        · exact ⟨fun _ => rfl, fun _ => rfl⟩
        · obtain ⟨h3, h4⟩ := h2 r hr
          constructor
          · intro h5
            rw [h3] at h5
            exact Bool.noConfusion h5
          · intro h5
            omega
    · simp only [pollRun, pollState, twoStepUnit_check0, hat, if_false, decide_False]
      obtain ⟨h1, h2⟩ := ih (t + 1) (by omega)
      refine ⟨?_, ?_⟩
      · rw [h1]
        have : (a < t + 1 + n) ↔ (a < t + (n + 1)) := by omega
        simp only [this]
      · intro r hr
        rcases List.mem_cons.mp hr with rfl | hr
        · constructor
          · intro h5
            exact Bool.noConfusion h5
          · intro h5
            exact (hat h5.symm).elim
        · exact h2 r hr

/-- C19: with the explicit steps stored as `[a, b]`, `b < a` (`AddStep(a)` then
`AddStep(b)`), and no interval trigger, polling `CheckTimestep` at the steps
`0, 1, ..., n-1` in increasing order polls each step once, returns true at step
`a` and at no other step (so never at `b`), and once step `a` has been polled
the cursor is 1, the index of the entry `b`, whatever the number of later
steps; after `Reset` the cursor is 0 and the call at step `a` advances it
again. -/
theorem out_of_order_step_lost (a b n : Nat) (hba : b < a) :
    (((Processing.new : Processing Freq).AddStep a).AddStep b).m_ProcessSteps = [a, b]
    ∧ (((Processing.new : Processing Freq).AddStep a).AddStep b).m_PS_pos = 0
    ∧ (pollRun n (((Processing.new : Processing Freq).AddStep a).AddStep b) 0).map
        (fun r => r.1) = List.range' 0 n
    ∧ (∀ r ∈ pollRun n (((Processing.new : Processing Freq).AddStep a).AddStep b) 0,
        (r.2 = true ↔ r.1 = a))
    ∧ (a < n → (a, true) ∈ pollRun n (((Processing.new : Processing Freq).AddStep a).AddStep b) 0)
    ∧ (b, true) ∉ pollRun n (((Processing.new : Processing Freq).AddStep a).AddStep b) 0
    ∧ (pollState n (((Processing.new : Processing Freq).AddStep a).AddStep b) 0).m_PS_pos
        = (if a < n then 1 else 0)
    ∧ (pollState n (((Processing.new : Processing Freq).AddStep a).AddStep b) 0).m_ProcessSteps
        = [a, b]
    ∧ (pollState n (((Processing.new : Processing Freq).AddStep a).AddStep b) 0).Reset.m_PS_pos = 0
    ∧ ((pollState n (((Processing.new : Processing Freq).AddStep a).AddStep b)
          0).Reset.CheckTimestep a).1 = true
    ∧ ((pollState n (((Processing.new : Processing Freq).AddStep a).AddStep b)
          0).Reset.CheckTimestep a).2.m_PS_pos = 1 := by
  rw [twoStepUnit_built a b (by omega)]
  obtain ⟨hstate, hrec⟩ := @poll_from_start Freq a b hba n 0 (Nat.zero_le _)
  have hsteps := pollRun_steps n (twoStepUnit a b 0 : Processing Freq) 0
  rw [hstate]
  have hreset : ∀ c, (twoStepUnit a b c : Processing Freq).Reset = twoStepUnit a b 0 :=
    fun _ => rfl
  refine ⟨rfl, rfl, hsteps, hrec, ?_, ?_, ?_, rfl, rfl, ?_, ?_⟩
  · intro han
    have hmem : a ∈ (pollRun n (twoStepUnit a b 0 : Processing Freq) 0).map (fun r => r.1) := by
      rw [hsteps, List.mem_range'_1]
      omega
    obtain ⟨r, hr, hra⟩ := List.mem_map.mp hmem
    have hfire := (hrec r hr).mpr hra
    obtain ⟨r1, r2⟩ := r
    simp only at hra hfire
    have hpair : (a, true) = (r1, r2) := by rw [hra, hfire]
    rw [hpair]
    exact hr
  · intro hmem
    have := (hrec (b, true) hmem).mp rfl
    simp only at this
    omega
  · by_cases han : a < n
    · rw [if_pos (by omega), if_pos han]
      rfl
    · rw [if_neg (by omega), if_neg han]
      rfl
  · rw [hreset, twoStepUnit_check0]
    simp
  · rw [hreset, twoStepUnit_check0]
    simp [twoStepUnit]

/-- Witness of C19: `AddStep(15)` then `AddStep(5)`, polled at the steps 0..19:
the unit fires at step 15, not at step 5, and the cursor ends at 1. -/
theorem out_of_order_step_lost_witness :
    (15, true) ∈ pollRun 20 (((Processing.new : Processing Nat).AddStep 15).AddStep 5) 0
    ∧ (5, true) ∉ pollRun 20 (((Processing.new : Processing Nat).AddStep 15).AddStep 5) 0
    ∧ (pollState 20 (((Processing.new : Processing Nat).AddStep 15).AddStep 5) 0).m_PS_pos = 1 :=
  ⟨(out_of_order_step_lost 15 5 20 (by decide)).2.2.2.2.1 (by decide),
    (out_of_order_step_lost 15 5 20 (by decide)).2.2.2.2.2.1,
    by decide⟩
